import Mathlib

/-!
Verification of the program/university standardizer implemented in
src/module_2/llm_hosting/app.py.

Python strings are modelled as lists of Unicode codepoints
(`Str := List Nat`).  Case conversion and character classes follow
Python's behaviour on ASCII; non-ASCII codepoints are treated as caseless
non-letters, and the whitespace set is the ASCII part of Python's.
The two canonical registries (canon_universities.txt / canon_programs.txt)
are data files that are not part of the source tree; per the spec a
missing file yields an empty registry, and the registries together with
the difflib-based fuzzy matcher are parameters of the embedding
(`StdEnv`).  `env0` is the empty-registry state, in which the source's
`_best_match` provably returns `None` (its candidate list is empty), so
every function of the pipeline is fully executable there.
-/

namespace LlmApp

/-- Python strings as lists of codepoints. -/
abbrev Str := List Nat

/-- Codepoints of a Lean string literal. -/
def strOf (s : String) : Str := s.data.map Char.toNat

/-- ASCII/Python whitespace (space, TAB, LF, VT, FF, CR, FS..US). -/
def isSpaceN (c : Nat) : Bool := (9 ≤ c && c ≤ 13) || c = 32 || (28 ≤ c && c ≤ 31)

/-- ASCII uppercase letter. -/
def isUpperA (c : Nat) : Bool := 65 ≤ c && c ≤ 90

/-- ASCII lowercase letter. -/
def isLowerA (c : Nat) : Bool := 97 ≤ c && c ≤ 122

/-- ASCII letter. -/
def isAlphaA (c : Nat) : Bool := isUpperA c || isLowerA c

/-- ASCII digit. -/
def isDigitN (c : Nat) : Bool := 48 ≤ c && c ≤ 57

/-- Regex word character `\w` (ASCII part). -/
def isWordC (c : Nat) : Bool := isAlphaA c || isDigitN c || c = 95

/-- `str.lower` on one codepoint (ASCII). -/
def toLowerC (c : Nat) : Nat := if 65 ≤ c ∧ c ≤ 90 then c + 32 else c

/-- `str.upper` on one codepoint (ASCII). -/
def toUpperC (c : Nat) : Nat := if 97 ≤ c ∧ c ≤ 122 then c - 32 else c

/-- `str.lower` on a whole string. -/
def lowStr (s : Str) : Str := s.map toLowerC

/-- Drop a trailing run of characters satisfying `p`. -/
def dropTrail (p : Nat → Bool) (s : Str) : Str := (s.reverse.dropWhile p).reverse

/-- Python `str.strip()` (whitespace on both ends). -/
def pyStrip (s : Str) : Str := dropTrail isSpaceN (s.dropWhile isSpaceN)

/-- Python `str.strip(",")` (commas on both ends). -/
def pyStripComma (s : Str) : Str :=
  dropTrail (fun c => c = 44) (s.dropWhile (fun c => c = 44))

/-- `re.sub(r"\s+", " ", s)`, scanning loop: `prevSpace` says whether the
previous character was whitespace (so the current run already emitted its
single space). -/
def collapseGo (prevSpace : Bool) : Str → Str
  | [] => []
  | c :: cs =>
      if isSpaceN c then
        if prevSpace then collapseGo true cs else 32 :: collapseGo true cs
      else c :: collapseGo false cs

/-- `re.sub(r"\s+", " ", s)`: collapse each whitespace run to one space. -/
def collapseWs (s : Str) : Str := collapseGo false s

/-- `s.split(",")`, keeping empty pieces, accumulator form. -/
def splitCommaGo (acc : Str) : Str → List Str
  | [] => [acc.reverse]
  | c :: cs =>
      if c = 44 then acc.reverse :: splitCommaGo [] cs
      else splitCommaGo (c :: acc) cs

/-- Python `s.split(",")`. -/
def splitComma (s : Str) : List Str := splitCommaGo [] s

/-- `", ".join(l)`. -/
def joinCS (l : List Str) : Str := List.intercalate [44, 32] l

/-- `[p.strip() for p in s.split(",") if p.strip()]`. -/
def partsOf (s : Str) : List Str :=
  ((splitComma s).map pyStrip).filter (fun p => !p.isEmpty)

/-- Python `str.title()`, core loop: capitalize a letter that follows a
non-letter, lowercase a letter that follows a letter. -/
def titGo (prevAlpha : Bool) : Str → Str
  | [] => []
  | c :: cs =>
      (if isAlphaA c then (if prevAlpha then toLowerC c else toUpperC c) else c)
        :: titGo (isAlphaA c) cs

/-- Python `str.title()`. -/
def titleStr (s : Str) : Str := titGo false s

/-- Emit a finished maximal word run (`cur` holds it reversed): the
pattern token is replaced, any other token is kept. -/
def emitTok (w repl cur : Str) : Str :=
  if cur.reverse = w then repl else cur.reverse

/-- Scanning loop of `re.sub(rf"\b{word}\b", repl, s)` for a pattern made
of word characters only: accumulate the current maximal `\w`-run in `cur`
(reversed) and replace it on emission when it equals the pattern. -/
def repTokGo (w repl : Str) (cur : Str) : Str → Str
  | [] => if cur.isEmpty then [] else emitTok w repl cur
  | c :: cs =>
      if isWordC c then repTokGo w repl (c :: cur) cs
      else if cur.isEmpty then c :: repTokGo w repl [] cs
      else emitTok w repl cur ++ c :: repTokGo w repl [] cs

/-- `re.sub(rf"\b{word}\b", repl, s)` for a pattern that consists of word
characters only: replace every maximal `\w`-run equal to `word`. -/
def repTok (w repl : Str) (s : Str) : Str := repTokGo w repl [] s

/-- The per-word lowercasing loop
`for word in ws: p = re.sub(rf"\b{word}\b", word.lower(), p)`. -/
def minorFold (ws : List Str) (s : Str) : Str :=
  ws.foldl (fun acc w => repTok w (lowStr w) acc) s

/-- `p = p[0].upper() + p[1:]` guarded by `if p:`. -/
def firstCap : Str → Str
  | [] => []
  | c :: cs => toUpperC c :: cs

/-- `re.sub(r"\s*\([A-Z]{2,}\)\s*$", "", s)`: remove a trailing
parenthetical of at least two capitals, together with the blanks around
it.  The anchored pattern matches at most once, at the end. -/
def parenStrip (s : Str) : Str :=
  let t := dropTrail isSpaceN s
  match t.reverse with
  | 41 :: r =>
      let u := r.takeWhile isUpperA
      if 2 ≤ u.length ∧ (r.drop u.length).headD 0 = 40 then
        dropTrail isSpaceN ((r.drop (u.length + 1)).reverse)
      else s
  | _ => s

/-- After `department`/`dept.?` was consumed: match `\s+of\s+` and return
what follows, or `none` if the tail does not match. -/
def ofTail (rest : Str) : Option Str :=
  if rest.takeWhile isSpaceN = [] then none
  else
    let r1 := rest.dropWhile isSpaceN
    if lowStr (r1.take 2) = strOf "of" then
      let r2 := r1.drop 2
      if r2.takeWhile isSpaceN = [] then none
      else some (r2.dropWhile isSpaceN)
    else none

/-- Second alternative of the prefix pattern: `dept\.?\s+of\s+`. -/
def deptAlt (s : Str) : Str :=
  if (lowStr s).take 4 = strOf "dept" then
    let r0 := s.drop 4
    let r1 := if r0.headD 0 = 46 then r0.drop 1 else r0
    match ofTail r1 with
    | some r => r
    | none => s
  else s

/-- `re.sub(r"^(department|dept\.?)\s+of\s+", "", s, flags=IGNORECASE)`. -/
def deptStrip (s : Str) : Str :=
  if (lowStr s).take 10 = strOf "department" then
    match ofTail (s.drop 10) with
    | some r => r
    | none => deptAlt s
  else deptAlt s

/-- Keywords of the first alternative of `_UNI_KW_RE` (matched after a
`\b`, no trailing boundary required). -/
def uniKws : List Str :=
  [strOf "university", strOf "college", strOf "institute", strOf "school",
   strOf "polytechnic", strOf "academy", strOf "conservatory", strOf "seminary"]

/-- Well-known standalone institution names of `_UNI_KW_RE` (matched
between two `\b`, case-insensitively since `(?i)` scopes the whole
pattern). -/
def uniAcros : List Str :=
  [strOf "mit", strOf "ucla", strOf "usc", strOf "nyu", strOf "cuny",
   strOf "suny", strOf "ucsf", strOf "ucsd", strOf "uci", strOf "ucr",
   strOf "ucd", strOf "ucsb", strOf "ucsc", strOf "ucb", strOf "ubc",
   strOf "epfl", strOf "eth", strOf "caltech", strOf "emory", strOf "purdue",
   strOf "rutgers", strOf "drexel", strOf "brandeis", strOf "tufts",
   strOf "vanderbilt", strOf "georgetown", strOf "stanford", strOf "harvard",
   strOf "yale", strOf "princeton", strOf "columbia", strOf "cornell",
   strOf "dartmouth", strOf "brown", strOf "rice", strOf "duke",
   strOf "oxford", strOf "cambridge"]

/-- Case-insensitive `startsWith`. -/
def startsLower (pat s : Str) : Bool := pat.isPrefixOf (lowStr s)

/-- Is the position after a prefix of length `n` a `\b` boundary (end of
string or a non-word character)? -/
def boundaryAfter (n : Nat) (s : Str) : Bool :=
  match s.drop n with
  | [] => true
  | d :: _ => !isWordC d

/-- Scanning loop of `_UNI_KW_RE.search`: `prevW` says whether the
previous character was a word character. -/
def kwGo (prevW : Bool) : Str → Bool
  | [] => false
  | c :: cs =>
      ((!prevW) &&
        (uniKws.any (fun k => startsLower k (c :: cs)) ||
         uniAcros.any (fun a =>
           startsLower a (c :: cs) && boundaryAfter a.length (c :: cs))))
      || kwGo (isWordC c) cs

/-- `_UNI_KW_RE.search(s)` as a Boolean. -/
def uniKwSearch (s : Str) : Bool := kwGo false s

/-- The environment the pipeline runs in: the two canonical registries
(loaded from text files that are absent from the source tree; per the
spec an absent file yields an empty registry) and the
`difflib.get_close_matches`-based fuzzy matcher, abstracted as an
oracle that is only consulted on a non-empty candidate list. -/
structure StdEnv where
  canonUnis : List Str
  canonProgs : List Str
  fuzzy : Str → List Str → Rat → Option Str

/-- The empty-registry state (both canonical text files absent). -/
def env0 : StdEnv := ⟨[], [], fun _ _ _ => none⟩

/-- `_best_match`: `None` on an empty name or candidate list, otherwise
the `difflib` result (the oracle). -/
def bestMatch (env : StdEnv) (name : Str) (candidates : List Str) (cutoff : Rat) :
    Option Str :=
  if name.isEmpty || candidates.isEmpty then none
  else env.fuzzy name candidates cutoff

/-- Python `x or y` for an optional string: `None` and `""` are falsy. -/
def pyOrStr (m : Option Str) (d : Str) : Str :=
  match m with
  | some s => if s.isEmpty then d else s
  | none => d

/-- Right-scan loop of `_smart_split`: try `i = parts.length - 1, ..., 1`;
at each boundary test exact canon membership, then fuzzy at 0.88, then
the keyword regex. -/
def goScan (env : StdEnv) (parts : List Str) : Nat → Option (Str × Str)
  | 0 => none
  | j + 1 =>
      let i := j + 1
      let cand := joinCS (parts.drop i)
      if cand ∈ env.canonUnis then some (joinCS (parts.take i), cand)
      else
        match bestMatch env cand env.canonUnis ((88 : Rat) / 100) with
        | some m => some (joinCS (parts.take i), m)
        | none =>
            if uniKwSearch cand then some (joinCS (parts.take i), cand)
            else goScan env parts j

/-- `_smart_split`. -/
def smartSplit (env : StdEnv) (text : Str) : Str × Str :=
  let s := pyStripComma (pyStrip (collapseWs text))
  let parts := partsOf s
  if parts.length ≤ 1 then (s, [])
  else
    match goScan env parts (parts.length - 1) with
    | some r => r
    | none => (parts.headD [], joinCS (parts.drop 1))

/-- Whole-string matches of `(?i)mcg(ill)?(\.)?` (in `_split_fallback`). -/
def mcgFbSet : List Str := [strOf "mcg", strOf "mcgill", strOf "mcg.", strOf "mcgill."]

/-- Whole-string matches of `(?i)u\.?b\.?c\.?` (shared by both UBC
patterns; each dot is independently optional). -/
def ubcDotSet : List Str :=
  [strOf "ubc", strOf "ubc.", strOf "ub.c", strOf "ub.c.",
   strOf "u.bc", strOf "u.bc.", strOf "u.b.c", strOf "u.b.c."]

/-- `_split_fallback`: right-scan split plus high-signal abbreviation
expansion, title-casing and the `Of` → `of` fix. -/
def splitFallback (env : StdEnv) (text : Str) : Str × Str :=
  let pu := smartSplit env text
  let uni1 := if lowStr pu.2 ∈ mcgFbSet then strOf "McGill University" else pu.2
  let uni2 :=
    if lowStr uni1 ∈ ubcDotSet ++ [strOf "university of british columbia"] then
      strOf "University of British Columbia"
    else uni1
  (titleStr pu.1,
   if uni2.isEmpty then strOf "Unknown"
   else repTok (strOf "Of") (strOf "of") (titleStr uni2))

/-- `COMMON_PROG_FIXES`. -/
def progFixes : List (Str × Str) :=
  [(strOf "Mathematic", strOf "Mathematics"),
   (strOf "Info Studies", strOf "Information Studies")]

/-- `COMMON_UNI_FIXES`. -/
def uniFixes : List (Str × Str) :=
  [(strOf "McGiill University", strOf "McGill University"),
   (strOf "Mcgill University", strOf "McGill University"),
   (strOf "University Of British Columbia", strOf "University of British Columbia")]

/-- `d.get(k, k)` on an association list. -/
def lookupFix (fixes : List (Str × Str)) (k : Str) : Str :=
  match fixes.find? (fun p => p.1 = k) with
  | some p => p.2
  | none => k

/-- Minor words lowered in `_post_normalize_program`. -/
def progMinors : List Str :=
  [strOf "And", strOf "Of", strOf "In", strOf "For", strOf "The",
   strOf "With", strOf "To"]

/-- Minor words lowered in `_post_normalize_university`. -/
def uniMinors : List Str :=
  [strOf "Of", strOf "And", strOf "In", strOf "For", strOf "The",
   strOf "At", strOf "De", strOf "Du", strOf "Des"]

/-- Title case, minor-word lowering and first-letter capitalization, the
shared tail of both normalizers. -/
def titleBlock (minors : List Str) (s : Str) : Str :=
  firstCap (minorFold minors (titleStr s))

/-- `_post_normalize_program`. -/
def postNormalizeProgram (env : StdEnv) (prog : Str) : Str :=
  let p1 := pyStrip prog
  let p2 := lookupFix progFixes p1
  let p3 := parenStrip p2
  let p4 := deptStrip p3
  let p5 := pyStrip (pyStripComma (pyStrip p4))
  let p6 := titleBlock progMinors p5
  if p6 ∈ env.canonProgs then p6
  else pyOrStr (bestMatch env p6 env.canonProgs ((78 : Rat) / 100)) p6

/-- Whole-string matches of `(?i)^mcg(\.|ill)?$` in `ABBREV_UNI`. -/
def mcgAbbrevSet : List Str := [strOf "mcg", strOf "mcg.", strOf "mcgill"]

/-- `ABBREV_UNI` applied as in the source: first full-matching pattern
wins, in insertion order (McGill, UBC, UofT). -/
def abbrevApply (u : Str) : Str :=
  if lowStr u ∈ mcgAbbrevSet then strOf "McGill University"
  else if lowStr u ∈ ubcDotSet then strOf "University of British Columbia"
  else if lowStr u = strOf "uoft" then strOf "University of Toronto"
  else u

/-- `_post_normalize_university`. -/
def postNormalizeUniversity (env : StdEnv) (uni : Str) : Str :=
  let u1 := pyStrip uni
  let u2 := abbrevApply u1
  let u3 := lookupFix uniFixes u2
  let u4 := pyStrip (parenStrip u3)
  let u5 := if u4.isEmpty then u4 else titleBlock uniMinors u4
  if u5 ∈ env.canonUnis then u5
  else
    pyOrStr (bestMatch env u5 env.canonUnis ((80 : Rat) / 100))
      (if u5.isEmpty then strOf "Unknown" else u5)

/-- The `"Unknown"` sentinel. -/
def unknownS : Str := strOf "Unknown"

/-- `_try_rule_based_parse`. -/
def tryRuleBasedParse (env : StdEnv) (t : Str) : Option (Str × Str) :=
  if t.isEmpty || (pyStrip t).isEmpty then some (unknownS, unknownS)
  else
    let pu := smartSplit env t
    if pu.2.isEmpty then none
    else
      let prog := postNormalizeProgram env pu.1
      let uni := postNormalizeUniversity env pu.2
      if uni ≠ unknownS ∧ ¬prog.isEmpty then some (prog, uni)
      else if ¬uni.isEmpty ∧ uni ∈ env.canonUnis then some (prog, uni)
      else none

/-! ### Model of `json.loads` and `str()` on the parsed values

`json.loads` is the standard library's strict JSON reader.  Floats are
kept as their source token (their `str()` rendering is the token for the
plain decimal notation the model realistically emits; scientific-notation
re-formatting is not modelled).  `repr` of nested containers is modelled
with single-quoted strings, without re-escaping of quotes. -/

/-- Python values produced by `json.loads`. -/
inductive PyVal where
  | vnull : PyVal
  | vbool : Bool → PyVal
  | vint : Int → PyVal
  | vfloat : Str → PyVal
  | vstr : Str → PyVal
  | varr : List PyVal → PyVal
  | vobj : List (Str × PyVal) → PyVal

/-- JSON inter-token whitespace. -/
def jsonWs (c : Nat) : Bool := c = 32 || c = 9 || c = 10 || c = 13

/-- Value of one hex digit. -/
def hexVal (c : Nat) : Option Nat :=
  if 48 ≤ c ∧ c ≤ 57 then some (c - 48)
  else if 97 ≤ c ∧ c ≤ 102 then some (c - 87)
  else if 65 ≤ c ∧ c ≤ 70 then some (c - 55)
  else none

/-- JSON string body (after the opening quote): unescape until the
closing quote; raw control characters are rejected (strict mode). -/
def pStrGo : Nat → Str → Str → Option (Str × Str)
  | 0, _, _ => none
  | _, [], _ => none
  | f + 1, c :: cs, acc =>
      if c = 34 then some (acc.reverse, cs)
      else if c = 92 then
        match cs with
        | 34 :: r => pStrGo f r (34 :: acc)
        | 92 :: r => pStrGo f r (92 :: acc)
        | 47 :: r => pStrGo f r (47 :: acc)
        | 98 :: r => pStrGo f r (8 :: acc)
        | 102 :: r => pStrGo f r (12 :: acc)
        | 110 :: r => pStrGo f r (10 :: acc)
        | 114 :: r => pStrGo f r (13 :: acc)
        | 116 :: r => pStrGo f r (9 :: acc)
        | 117 :: h1 :: h2 :: h3 :: h4 :: r =>
            match hexVal h1, hexVal h2, hexVal h3, hexVal h4 with
            | some a, some b, some c2, some d =>
                pStrGo f r ((a * 4096 + b * 256 + c2 * 16 + d) :: acc)
            | _, _, _, _ => none
        | _ => none
      else if c < 32 then none
      else pStrGo f cs (c :: acc)

/-- JSON number: `-?(0|[1-9][0-9]*)(\.[0-9]+)?([eE][-+]?[0-9]+)?`; an
integer literal becomes a Python `int`, anything else a `float` kept as
its token. -/
def pNum (s : Str) : Option (PyVal × Str) :=
  let (sgn, r0) := if s.headD 0 = 45 then ([45], s.drop 1) else (([] : Str), s)
  let ipart :=
    match r0 with
    | 48 :: _ => some [48]
    | c :: _ => if 49 ≤ c ∧ c ≤ 57 then some (r0.takeWhile isDigitN) else none
    | [] => none
  match ipart with
  | none => none
  | some ip =>
      let r1 := r0.drop ip.length
      let fpart :=
        match r1 with
        | 46 :: d :: _ =>
            if isDigitN d then some (46 :: (r1.drop 1).takeWhile isDigitN)
            else none
        | _ => none
      let r2 := r1.drop ((fpart.getD []).length)
      let epart :=
        match r2 with
        | e :: rest =>
            if e = 101 ∨ e = 69 then
              let (es, rest2) :=
                match rest with
                | 43 :: t => (([e, 43] : Str), t)
                | 45 :: t => (([e, 45] : Str), t)
                | t => ([e], t)
              match rest2 with
              | d :: _ => if isDigitN d then some (es ++ rest2.takeWhile isDigitN) else none
              | [] => none
            else none
        | [] => none
      let r3 := r2.drop ((epart.getD []).length)
      match fpart, epart with
      | none, none =>
          let v : Int := (ip.foldl (fun a c => a * 10 + (c - 48)) 0 : Nat)
          some (.vint (if sgn.isEmpty then v else -v), r3)
      | _, _ => some (.vfloat (sgn ++ ip ++ fpart.getD [] ++ epart.getD []), r3)

mutual

/-- JSON value (leading whitespace allowed). -/
def pVal : Nat → Str → Option (PyVal × Str)
  | 0, _ => none
  | f + 1, s =>
      let s1 := s.dropWhile jsonWs
      match s1 with
      | [] => none
      | c :: cs =>
          if c = 123 then pObj f cs
          else if c = 91 then pArr f cs
          else if c = 34 then
            match pStrGo (cs.length + 1) cs [] with
            | some (str, r) => some (.vstr str, r)
            | none => none
          else if (strOf "true").isPrefixOf s1 then some (.vbool true, s1.drop 4)
          else if (strOf "false").isPrefixOf s1 then some (.vbool false, s1.drop 5)
          else if (strOf "null").isPrefixOf s1 then some (.vnull, s1.drop 4)
          else pNum s1

/-- JSON object body, after the opening brace. -/
def pObj : Nat → Str → Option (PyVal × Str)
  | 0, _ => none
  | f + 1, s =>
      let s1 := s.dropWhile jsonWs
      match s1 with
      | 125 :: r => some (.vobj [], r)
      | _ => pMembers f s1 []

/-- Non-empty member list of a JSON object, expecting a key string. -/
def pMembers : Nat → Str → List (Str × PyVal) → Option (PyVal × Str)
  | 0, _, _ => none
  | f + 1, s, acc =>
      match s with
      | 34 :: cs =>
          match pStrGo (cs.length + 1) cs [] with
          | some (k, r1) =>
              match r1.dropWhile jsonWs with
              | 58 :: r3 =>
                  match pVal f r3 with
                  | some (v, r4) =>
                      match r4.dropWhile jsonWs with
                      | 44 :: r6 => pMembers f (r6.dropWhile jsonWs) ((k, v) :: acc)
                      | 125 :: r6 => some (.vobj ((k, v) :: acc).reverse, r6)
                      | _ => none
                  | none => none
              | _ => none
          | none => none
      | _ => none

/-- JSON array body, after the opening bracket. -/
def pArr : Nat → Str → Option (PyVal × Str)
  | 0, _ => none
  | f + 1, s =>
      let s1 := s.dropWhile jsonWs
      match s1 with
      | 93 :: r => some (.varr [], r)
      | _ => pItems f s1 []

/-- Non-empty item list of a JSON array. -/
def pItems : Nat → Str → List PyVal → Option (PyVal × Str)
  | 0, _, _ => none
  | f + 1, s, acc =>
      match pVal f s with
      | some (v, r) =>
          match r.dropWhile jsonWs with
          | 44 :: r2 => pItems f r2 (v :: acc)
          | 93 :: r2 => some (.varr (v :: acc).reverse, r2)
          | _ => none
      | none => none

end

/-- `json.loads`: a single document with nothing but whitespace after it. -/
def jsonLoads (s : Str) : Option PyVal :=
  match pVal (4 * s.length + 8) s with
  | some (v, rest) => if (rest.dropWhile jsonWs).isEmpty then some v else none
  | none => none

/-- `str(n)` for a natural number. -/
def natToStr (n : Nat) : Str := (Nat.toDigits 10 n).map Char.toNat

/-- `str(i)` for a Python int. -/
def intToStr (i : Int) : Str :=
  if i < 0 then 45 :: natToStr i.natAbs else natToStr i.natAbs

mutual

/-- Python `repr` of a parsed JSON value (single-quoted strings). -/
def pyRepr : PyVal → Str
  | .vnull => strOf "None"
  | .vbool true => strOf "True"
  | .vbool false => strOf "False"
  | .vint n => intToStr n
  | .vfloat tok => tok
  | .vstr s => 39 :: (s ++ [39])
  | .varr xs => 91 :: (joinCS (pyReprList xs) ++ [93])
  | .vobj kvs => 123 :: (joinCS (pyReprKvs kvs) ++ [125])

/-- `repr` of each element of a list. -/
def pyReprList : List PyVal → List Str
  | [] => []
  | v :: vs => pyRepr v :: pyReprList vs

/-- `repr` of each `key: value` pair of a dict. -/
def pyReprKvs : List (Str × PyVal) → List Str
  | [] => []
  | (k, v) :: kvs => ((39 :: (k ++ [39, 58, 32])) ++ pyRepr v) :: pyReprKvs kvs

end

/-- Python `str()` of a parsed JSON value. -/
def pyStr : PyVal → Str
  | .vstr s => s
  | v => pyRepr v

/-- `JSON_OBJ_RE.search(text)`: the non-greedy `\x7b.*?\x7d` match, i.e.
from the first opening brace to the first closing brace after it. -/
def braceSpan (s : Str) : Option Str :=
  let rest := s.dropWhile (fun c => c ≠ 123)
  if rest.isEmpty then none
  else
    let pre := rest.takeWhile (fun c => c ≠ 125)
    if (rest.drop pre.length).isEmpty then none else some (pre ++ [125])

/-- `dict.get(k, "")` followed by `str(...)`; duplicate JSON keys keep
the last occurrence, as in `json.loads`. -/
def objGet (kvs : List (Str × PyVal)) (k : Str) : PyVal :=
  match kvs.reverse.find? (fun p => p.1 = k) with
  | some p => p.2
  | none => .vstr []

/-- The `try` block of `_call_llm_cached`: `None` exactly when locating
and JSON-parsing the first embedded object (or, failing a regex match,
the whole text) does not produce a dict, i.e. when the Python code
raises and falls back. -/
def extractObj (text : Str) : Option (List (Str × PyVal)) :=
  match jsonLoads ((braceSpan text).getD text) with
  | some (.vobj kvs) => some kvs
  | _ => none

/-- Key of the standardized program field. -/
def progKey : Str := strOf "standardized_program"

/-- Key of the standardized university field. -/
def uniKey : Str := strOf "standardized_university"

/-- Body of `_call_llm_cached` (the computation that `lru_cache`
memoizes).  `modelOut` is the model's completion text for a prompt built
from the raw text — `(out["choices"][0]["message"]["content"] or "")`. -/
def callLlmBody (env : StdEnv) (modelOut : Str → Str) (raw : Str) : Str × Str :=
  let text := pyStrip (modelOut raw)
  let su :=
    match extractObj text with
    | some kvs =>
        (pyStrip (pyStr (objGet kvs progKey)), pyStrip (pyStr (objGet kvs uniKey)))
    | none => splitFallback env raw
  (postNormalizeProgram env su.1, postNormalizeUniversity env su.2)

/-- `_standardize_fast`: rules first, else the (cached) LLM call.  By the
purity of the memoized body (see the cache theorems) the cached call
returns `callLlmBody`. -/
def standardizeFast (env : StdEnv) (modelOut : Str → Str) (t : Str) : Str × Str :=
  match tryRuleBasedParse env t with
  | some r => r
  | none => callLlmBody env modelOut t

/-- `_standardize_fast`, instrumented with the number of model-fallback
invocations it performs (0 or 1). -/
def standardizeFastCount (env : StdEnv) (modelOut : Str → Str) (t : Str) :
    (Str × Str) × Nat :=
  match tryRuleBasedParse env t with
  | some r => (r, 0)
  | none => (callLlmBody env modelOut t, 1)

/-! ### The `functools.lru_cache(maxsize=10000)` wrapper

An LRU cache is a list of key/value pairs, most recently used first.  A
hit moves the entry to the front; a miss computes `callLlmBody`, inserts
the entry at the front and drops the least recently used entry when the
capacity is exceeded. -/

/-- `maxsize` of the decorator on `_call_llm_cached`. -/
def lruMaxsize : Nat := 10000

/-- Cache state: key/value pairs, most recently used first. -/
abbrev CacheSt := List (Str × (Str × Str))

/-- Cache lookup by exact raw text. -/
def findVal (st : CacheSt) (k : Str) : Option (Str × Str) :=
  (st.find? (fun p => p.1 = k)).map (fun p => p.2)

/-- Remove the first entry with the given key. -/
def eraseKey : CacheSt → Str → CacheSt
  | [], _ => []
  | p :: ps, k => if p.1 = k then ps else p :: eraseKey ps k

/-- One call of the memoized `_call_llm_cached`: the new state, the
returned result, and whether the underlying model was invoked. -/
def lruStep (env : StdEnv) (modelOut : Str → Str) (st : CacheSt) (k : Str) :
    CacheSt × (Str × Str) × Bool :=
  match findVal st k with
  | some v => ((k, v) :: eraseKey st k, v, false)
  | none =>
      let v := callLlmBody env modelOut k
      (((k, v) :: st).take lruMaxsize, v, true)

/-- State after a sequence of calls. -/
def lruRunSt (env : StdEnv) (modelOut : Str → Str) : CacheSt → List Str → CacheSt
  | st, [] => st
  | st, k :: ks => lruRunSt env modelOut (lruStep env modelOut st k).1 ks

/-- The results returned by a sequence of calls. -/
def lruResults (env : StdEnv) (modelOut : Str → Str) : CacheSt → List Str → List (Str × Str)
  | _, [] => []
  | st, k :: ks =>
      (lruStep env modelOut st k).2.1 :: lruResults env modelOut (lruStep env modelOut st k).1 ks

/-- How many of the calls in the trace invoked the underlying model on
behalf of the key `k`. -/
def lruInvoc (env : StdEnv) (modelOut : Str → Str) : CacheSt → List Str → Str → Nat
  | _, [], _ => 0
  | st, q :: qs, k =>
      (if q = k ∧ (lruStep env modelOut st q).2.2 then 1 else 0)
        + lruInvoc env modelOut (lruStep env modelOut st q).1 qs k

/-! ### Input records and the two batch entry points -/

/-- An input record: a dict that may carry a `program` field of any JSON
type, plus (a stand-in for) its arbitrary other fields.  A request row
that is JSON `null` is modelled as `none : Option RowD` at the use
sites. -/
structure RowD where
  program : Option PyVal
  payload : Nat

/-- Python truthiness of a parsed JSON value (the float-zero corner is
not modelled; floats count as truthy). -/
def pyTruthy : PyVal → Bool
  | .vnull => false
  | .vbool b => b
  | .vint n => n != 0
  | .vfloat _ => true
  | .vstr s => !s.isEmpty
  | .varr l => !l.isEmpty
  | .vobj l => !l.isEmpty

/-- A raised Python exception (TypeError/AttributeError). -/
inductive PyErr where
  | typeErr : PyErr

/-- `(row or \x7b\x7d).get("program") or ""`, followed by the `.strip()`
call inside `_try_rule_based_parse`, which raises for a truthy non-string
value. -/
def rowTextE (r : RowD) : Except PyErr Str :=
  match r.program with
  | none => Except.ok []
  | some v =>
      if pyTruthy v then
        match v with
        | .vstr s => Except.ok s
        | _ => Except.error .typeErr
      else Except.ok []

/-- A record augmented with the two derived fields. -/
abbrev ProcRow := RowD × (Str × Str)

/-- One iteration of the `POST /standardize` loop, with the fallback
invocation count: a `None` row raises at
`row["llm-generated-program"] = ...`. -/
def httpStepCnt (env : StdEnv) (modelOut : Str → Str) (orow : Option RowD) :
    Except PyErr (ProcRow × Nat) :=
  match orow with
  | none => Except.error .typeErr
  | some r =>
      match rowTextE r with
      | Except.ok t =>
          let rc := standardizeFastCount env modelOut t
          Except.ok ((r, rc.1), rc.2)
      | Except.error e => Except.error e

/-- One iteration of the `POST /standardize` loop. -/
def httpStep (env : StdEnv) (modelOut : Str → Str) (orow : Option RowD) :
    Except PyErr ProcRow :=
  match httpStepCnt env modelOut orow with
  | Except.ok (pr, _) => Except.ok pr
  | Except.error e => Except.error e

/-- Sequential effectful map: the first raised exception aborts the
whole request, exactly like the Python for-loops. -/
def mapME {α β : Type} (f : α → Except PyErr β) : List α → Except PyErr (List β)
  | [] => Except.ok []
  | a :: l =>
      match f a with
      | Except.ok b =>
          match mapME f l with
          | Except.ok bs => Except.ok (b :: bs)
          | Except.error e => Except.error e
      | Except.error e => Except.error e

/-- The `POST /standardize` handler body over already-decoded rows. -/
def httpStandardizeE (env : StdEnv) (modelOut : Str → Str)
    (rows : List (Option RowD)) : Except PyErr (List ProcRow) :=
  mapME (httpStep env modelOut) rows

/-- `_process_single_row`, with the fallback invocation count. -/
def processSingleRowCntE (env : StdEnv) (modelOut : Str → Str) (r : RowD) :
    Except PyErr (ProcRow × Nat) :=
  match rowTextE r with
  | Except.ok t =>
      let rc := standardizeFastCount env modelOut t
      Except.ok ((r, rc.1), rc.2)
  | Except.error e => Except.error e

/-- `_process_single_row`. -/
def processSingleRowE (env : StdEnv) (modelOut : Str → Str) (r : RowD) :
    Except PyErr ProcRow :=
  match rowTextE r with
  | Except.ok t => Except.ok (r, standardizeFast env modelOut t)
  | Except.error e => Except.error e

/-- `enumerate(rows)` starting at `n`. -/
def enumF {α : Type} (n : Nat) : List α → List (Nat × α)
  | [] => []
  | a :: l => (n, a) :: enumF (n + 1) l

/-- First pass of `_cli_process_file`: split the enumerated rows into the
rule-parsed rows (already augmented) and the rows still needing the
model. -/
def pass1 (env : StdEnv) : List (Nat × RowD) →
    Except PyErr (List (Nat × ProcRow) × List (Nat × RowD))
  | [] => Except.ok ([], [])
  | (i, r) :: rest =>
      match rowTextE r with
      | Except.error e => Except.error e
      | Except.ok t =>
          match tryRuleBasedParse env t with
          | some res =>
              match pass1 env rest with
              | Except.ok (a, b) => Except.ok ((i, (r, res)) :: a, b)
              | Except.error e => Except.error e
          | none =>
              match pass1 env rest with
              | Except.ok (a, b) => Except.ok (a, (i, r) :: b)
              | Except.error e => Except.error e

/-- Insert into a list sorted by original position (model of the
`sorted(..., key=lambda x: x[0])` merge; positions are distinct). -/
def sortInsert {α : Type} (x : Nat × α) : List (Nat × α) → List (Nat × α)
  | [] => [x]
  | y :: ys => if x.1 < y.1 then x :: y :: ys else y :: sortInsert x ys

/-- Sort tagged rows by their original position. -/
def sortByKey {α : Type} (l : List (Nat × α)) : List (Nat × α) :=
  l.foldr sortInsert []

/-- `_cli_process_file`, from decoded rows to the emitted row list:
partition, process the model-needed rows sequentially, merge by original
index, emit. -/
def cliProcessE (env : StdEnv) (modelOut : Str → Str) (rows : List RowD) :
    Except PyErr (List ProcRow) :=
  match pass1 env (enumF 0 rows) with
  | Except.error e => Except.error e
  | Except.ok (ruleParsed, llmNeeded) =>
      match mapME
          (fun p => (processSingleRowE env modelOut p.2).map (fun pr => (p.1, pr)))
          llmNeeded with
      | Except.ok llmDone =>
          Except.ok ((sortByKey (ruleParsed ++ llmDone)).map (fun p => p.2))
      | Except.error e => Except.error e

/-- The text a processable row standardizes (its `program` string, or
`""` when the field is missing or falsy). -/
def okText (r : RowD) : Str :=
  match rowTextE r with
  | Except.ok t => t
  | Except.error _ => []

/-- Does processing this row raise no exception? -/
def rowOk (r : RowD) : Bool :=
  match rowTextE r with
  | Except.ok _ => true
  | Except.error _ => false

/-- The record with its two derived fields, as every processable row is
emitted by either entry point. -/
def procRow (env : StdEnv) (modelOut : Str → Str) (r : RowD) : ProcRow :=
  (r, standardizeFast env modelOut (okText r))

/-- Rule-parsed part of the first CLI pass (specification side). -/
def pass1A (env : StdEnv) : List (Nat × RowD) → List (Nat × ProcRow)
  | [] => []
  | (i, r) :: rest =>
      match tryRuleBasedParse env (okText r) with
      | some res => (i, (r, res)) :: pass1A env rest
      | none => pass1A env rest

/-- Fallback-needed part of the first CLI pass (specification side). -/
def pass1B (env : StdEnv) : List (Nat × RowD) → List (Nat × RowD)
  | [] => []
  | (i, r) :: rest =>
      match tryRuleBasedParse env (okText r) with
      | some _ => pass1B env rest
      | none => (i, r) :: pass1B env rest

/-- Keys currently in a cache state. -/
def keysOf (st : CacheSt) : List Str := st.map Prod.fst

/-- Number of distinct texts in `ms` that are not among the keys `ks`. -/
def freshCnt (ms : List Str) (ks : List Str) : Nat :=
  (ms.dedup.filter (fun j => decide (j ∉ ks))).length

/-- The cache entry a miss on `k` inserts. -/
def kvPair (env : StdEnv) (mo : Str → Str) (k : Str) : Str × (Str × Str) :=
  (k, callLlmBody env mo k)

/-- The i-th cache-filler text: distinct non-"k" raw texts, coded by
length. -/
def fillerK (i : Nat) : Str := List.replicate (i + 2) 97

/-- A call trace with two calls on the raw text "k" separated by exactly
`maxsize` distinct other texts. -/
def exTraceC4 : List Str := [107] :: ((List.range lruMaxsize).map fillerK ++ [[107]])

/-- A rule-parseable example row. -/
def exRow1 : RowD := ⟨some (.vstr (strOf "Math, Temple University")), 0⟩

/-- A fallback-needing example row (no comma, no keyword). -/
def exRow2 : RowD := ⟨some (.vstr (strOf "x")), 1⟩

/-- A mixed batch: fallback-needing row between rule-parseable ones. -/
def exRows : List RowD := [exRow1, exRow2, ⟨some (.vstr (strOf "CS, MIT")), 2⟩]

/-! ### Helper lemmas -/

theorem pyStrip_eq_nil {t : Str} (h : ∀ c ∈ t, isSpaceN c) : pyStrip t = [] := by
  unfold pyStrip dropTrail
  rw [List.dropWhile_eq_nil_iff.mpr h]
  simp

theorem canonOr_ne_nil (env : StdEnv) (hwf : ∀ u ∈ env.canonUnis, u ≠ [])
    (v : Str) (c : Rat) :
    (if v ∈ env.canonUnis then v
     else pyOrStr (bestMatch env v env.canonUnis c)
            (if v.isEmpty then strOf "Unknown" else v)) ≠ [] := by
  simp only [pyOrStr]
  split
  · exact hwf _ (by assumption)
  · split
    · rename_i s hs
      split_ifs with h1 h2 <;> simp_all [strOf, List.isEmpty_iff]
    · split_ifs with h1 <;> simp_all [strOf, List.isEmpty_iff]

theorem postNormU_ne_nil (env : StdEnv) (hwf : ∀ u ∈ env.canonUnis, u ≠ [])
    (u : Str) : postNormalizeUniversity env u ≠ [] := by
  simp only [postNormalizeUniversity]
  exact canonOr_ne_nil env hwf _ _

theorem tryRule_snd (env : StdEnv) (t : Str) (r : Str × Str)
    (h : tryRuleBasedParse env t = some r) :
    r.2 = unknownS ∨ r.2 = postNormalizeUniversity env (smartSplit env t).2 := by
  unfold tryRuleBasedParse at h
  split at h
  · cases h
    exact Or.inl rfl
  · simp only at h
    split at h
    · cases h
    · split at h
      · cases h
        exact Or.inr rfl
      · split at h
        · cases h
          exact Or.inr rfl
        · cases h

theorem toLowerC_toLowerC (c : Nat) : toLowerC (toLowerC c) = toLowerC c := by
  simp only [toLowerC]
  split_ifs <;> omega

theorem toLowerC_toUpperC (c : Nat) : toLowerC (toUpperC c) = toLowerC c := by
  simp only [toLowerC, toUpperC]
  split_ifs <;> omega

theorem toUpperC_congr {a b : Nat} (h : toLowerC a = toLowerC b) :
    toUpperC a = toUpperC b := by
  simp only [toLowerC] at h
  simp only [toUpperC]
  split_ifs at * <;> omega

theorem isAlphaA_congr {a b : Nat} (h : toLowerC a = toLowerC b) :
    isAlphaA a = isAlphaA b := by
  simp only [toLowerC] at h
  simp only [isAlphaA, isUpperA, isLowerA]
  rw [Bool.eq_iff_iff]
  simp only [Bool.or_eq_true, Bool.and_eq_true, decide_eq_true_eq]
  split_ifs at h <;> omega

theorem toLowerC_of_not_alpha {c : Nat} (h : isAlphaA c = false) :
    toLowerC c = c := by
  simp only [isAlphaA, isUpperA, isLowerA, Bool.or_eq_false_iff,
    Bool.and_eq_false_iff, decide_eq_false_iff_not] at h
  simp only [toLowerC]
  split_ifs <;> omega
theorem lowStr_titGo (b : Bool) (s : Str) : lowStr (titGo b s) = lowStr s := by
  induction s generalizing b with
  | nil => rfl
  | cons c cs ih =>
      simp only [titGo, lowStr, List.map_cons]
      rw [show List.map toLowerC (titGo (isAlphaA c) cs) = List.map toLowerC cs from ih _]
      congr 1
      split_ifs <;> simp [toLowerC_toLowerC, toLowerC_toUpperC]

theorem titGo_congr {s t : Str} (b : Bool) (h : lowStr s = lowStr t) :
    titGo b s = titGo b t := by
  induction s generalizing t b with
  | nil =>
      cases t with
      | nil => rfl
      | cons d ds => simp [lowStr] at h
  | cons c cs ih =>
      cases t with
      | nil => simp [lowStr] at h
      | cons d ds =>
          simp only [lowStr, List.map_cons, List.cons.injEq] at h
          obtain ⟨hc, hrest⟩ := h
          simp only [titGo]
          rw [isAlphaA_congr hc]
          congr 1
          · cases ha : isAlphaA d with
            | true =>
                simp only [if_pos rfl]
                cases b <;> simp [hc, toUpperC_congr hc]
            | false =>
                have hca : isAlphaA c = false := by rw [isAlphaA_congr hc, ha]
                simp only [Bool.false_eq_true, if_neg, ha]
                rw [← toLowerC_of_not_alpha hca, ← toLowerC_of_not_alpha ha, hc]
          · exact ih _ hrest

theorem lowStr_lowStr (s : Str) : lowStr (lowStr s) = lowStr s := by
  simp [lowStr, List.map_map, Function.comp]
  exact fun c _ => toLowerC_toLowerC c

theorem lowStr_emitTok (w cur : Str) :
    lowStr (emitTok w (lowStr w) cur) = lowStr cur.reverse := by
  simp only [emitTok]
  split_ifs with h
  · rw [← h, lowStr_lowStr]
  · simp [lowStr]

theorem lowStr_repTokGo (w : Str) (s : Str) : ∀ cur : Str,
    lowStr (repTokGo w (lowStr w) cur s) = lowStr cur.reverse ++ lowStr s := by
  induction s with
  | nil =>
      intro cur
      simp only [repTokGo]
      split_ifs with h
      · simp [List.isEmpty_iff] at h
        simp [h, lowStr]
      · rw [lowStr_emitTok]
        simp [lowStr]
  | cons c cs ih =>
      intro cur
      simp only [repTokGo]
      split_ifs with h1 h2
      · rw [ih (c :: cur)]
        simp [lowStr]
      · simp [List.isEmpty_iff] at h2
        rw [show lowStr (c :: repTokGo w (lowStr w) [] cs)
              = toLowerC c :: lowStr (repTokGo w (lowStr w) [] cs) from rfl]
        rw [ih []]
        simp [h2, lowStr]
      · rw [show lowStr (emitTok w (lowStr w) cur ++ c :: repTokGo w (lowStr w) [] cs)
              = lowStr (emitTok w (lowStr w) cur) ++ lowStr (c :: repTokGo w (lowStr w) [] cs)
            from by simp [lowStr]]
        rw [lowStr_emitTok]
        rw [show lowStr (c :: repTokGo w (lowStr w) [] cs)
              = toLowerC c :: lowStr (repTokGo w (lowStr w) [] cs) from rfl]
        rw [ih []]
        simp [lowStr]

theorem lowStr_repTok (w s : Str) : lowStr (repTok w (lowStr w) s) = lowStr s := by
  simpa [lowStr] using lowStr_repTokGo w s []

theorem lowStr_minorFold (ws : List Str) (s : Str) :
    lowStr (minorFold ws s) = lowStr s := by
  induction ws generalizing s with
  | nil => rfl
  | cons w ws ih =>
      simp only [minorFold, List.foldl_cons] at *
      rw [ih, lowStr_repTok]

theorem lowStr_firstCap (s : Str) : lowStr (firstCap s) = lowStr s := by
  cases s with
  | nil => rfl
  | cons c cs => simp [firstCap, lowStr, toLowerC_toUpperC]

theorem lowStr_titleBlock (ms : List Str) (s : Str) :
    lowStr (titleBlock ms s) = lowStr s := by
  simp only [titleBlock, titleStr]
  rw [lowStr_firstCap, lowStr_minorFold, lowStr_titGo]

theorem titleBlock_idem (ms : List Str) (s : Str) :
    titleBlock ms (titleBlock ms s) = titleBlock ms s := by
  have h : titGo false (titleBlock ms s) = titGo false s :=
    titGo_congr false (by rw [lowStr_titleBlock])
  calc titleBlock ms (titleBlock ms s)
      = firstCap (minorFold ms (titGo false (titleBlock ms s))) := rfl
    _ = firstCap (minorFold ms (titGo false s)) := by rw [h]
    _ = titleBlock ms s := rfl

theorem titleBlock_length (ms : List Str) (s : Str) :
    (titleBlock ms s).length = s.length := by
  have h := lowStr_titleBlock ms s
  have := congrArg List.length h
  simpa [lowStr] using this
theorem postNormP0_form (x : Str) :
    postNormalizeProgram env0 x =
      titleBlock progMinors
        (pyStrip (pyStripComma (pyStrip
          (deptStrip (parenStrip (lookupFix progFixes (pyStrip x))))))) := by
  simp [postNormalizeProgram, env0, bestMatch, pyOrStr]

theorem postNormU0_form (x : Str) :
    postNormalizeUniversity env0 x =
      (if (pyStrip (parenStrip (lookupFix uniFixes (abbrevApply (pyStrip x))))).isEmpty
       then unknownS
       else titleBlock uniMinors
              (pyStrip (parenStrip (lookupFix uniFixes (abbrevApply (pyStrip x)))))) := by
  simp only [postNormalizeUniversity, env0, bestMatch, pyOrStr]
  set u4 := pyStrip (parenStrip (lookupFix uniFixes (abbrevApply (pyStrip x)))) with hu4
  by_cases h : u4.isEmpty
  · simp [h, List.isEmpty_iff.mp h, unknownS]
  · have hlen : ¬(titleBlock uniMinors u4).isEmpty := by
      simp only [List.isEmpty_iff] at h ⊢
      intro he
      have := titleBlock_length uniMinors u4
      rw [he] at this
      exact h (List.eq_nil_of_length_eq_zero this.symm)
    simp [h, hlen]

theorem titleBlock_ne_nil (ms : List Str) {s : Str} (h : s ≠ []) :
    titleBlock ms s ≠ [] := by
  intro he
  have := titleBlock_length ms s
  rw [he] at this
  exact h (List.eq_nil_of_length_eq_zero this.symm)

/-! ### Claim C1 -/

/-- Claim C1 counterexample: neither normalizer is idempotent.  A second
application of `_post_normalize_program` to its own output on
"mathematic" applies the "Mathematic" → "Mathematics" exact fix that the
first application's title-casing just created; a second application of
`_post_normalize_university` to its own output on "mcg (ABC)" expands
the abbreviation "Mcg" that the first application uncovered by stripping
the parenthetical. -/
theorem C1_counterexample :
    postNormalizeProgram env0 (postNormalizeProgram env0 (strOf "mathematic"))
        ≠ postNormalizeProgram env0 (strOf "mathematic")
      ∧ postNormalizeUniversity env0 (postNormalizeUniversity env0 (strOf "mcg (ABC)"))
        ≠ postNormalizeUniversity env0 (strOf "mcg (ABC)") := by
  decide

/-- Claim C1 (amended): with the registries as shipped (empty), each
normalizer is idempotent on every input whose first output is left
unchanged by its own early cleanup stages — the exact-fix lookup, the
parenthetical/department strips and the blank/comma strips for programs;
the abbreviation patterns, the exact-fix lookup, the parenthetical strip
and the blank strip for universities.  Inputs like "mathematic" or
"mcg (ABC)", whose first output re-triggers such a stage, refute
unconditional idempotence. -/
theorem C1_amended :
    (∀ x : Str,
       pyStrip (postNormalizeProgram env0 x) = postNormalizeProgram env0 x →
       lookupFix progFixes (postNormalizeProgram env0 x) = postNormalizeProgram env0 x →
       parenStrip (postNormalizeProgram env0 x) = postNormalizeProgram env0 x →
       deptStrip (postNormalizeProgram env0 x) = postNormalizeProgram env0 x →
       pyStripComma (postNormalizeProgram env0 x) = postNormalizeProgram env0 x →
       postNormalizeProgram env0 (postNormalizeProgram env0 x)
         = postNormalizeProgram env0 x)
    ∧ (∀ x : Str,
       pyStrip (postNormalizeUniversity env0 x) = postNormalizeUniversity env0 x →
       abbrevApply (postNormalizeUniversity env0 x) = postNormalizeUniversity env0 x →
       lookupFix uniFixes (postNormalizeUniversity env0 x) = postNormalizeUniversity env0 x →
       parenStrip (postNormalizeUniversity env0 x) = postNormalizeUniversity env0 x →
       postNormalizeUniversity env0 (postNormalizeUniversity env0 x)
         = postNormalizeUniversity env0 x) := by
  constructor
  · intro x hA hB hC hD hE
    have hform :
        postNormalizeProgram env0 (postNormalizeProgram env0 x)
          = titleBlock progMinors (postNormalizeProgram env0 x) := by
      rw [postNormP0_form (postNormalizeProgram env0 x), hA, hB, hC, hD, hA, hE, hA]
    rw [hform, postNormP0_form x, titleBlock_idem]
  · intro x hA hB hC hD
    have hq : postNormalizeUniversity env0 x ≠ [] :=
      postNormU_ne_nil env0 (by simp [env0]) x
    have hform :
        postNormalizeUniversity env0 (postNormalizeUniversity env0 x)
          = titleBlock uniMinors (postNormalizeUniversity env0 x) := by
      rw [postNormU0_form (postNormalizeUniversity env0 x), hA, hB, hC]
      have hstrip : pyStrip (parenStrip (postNormalizeUniversity env0 x))
          = postNormalizeUniversity env0 x := by rw [hD, hA]
      rw [hD, hA, if_neg (by simp [List.isEmpty_iff, hq])]
    rw [hform, postNormU0_form x]
    by_cases h4 : (pyStrip (parenStrip (lookupFix uniFixes (abbrevApply (pyStrip x))))).isEmpty
    · rw [if_pos h4]
      decide
    · rw [if_neg h4, titleBlock_idem]

/-- Claim C1 witness: the amended idempotence evaluated at
"computer science" (program) and "temple university" (university), whose
outputs satisfy all the fixed-point side conditions. -/
theorem C1_amended_witness :
    postNormalizeProgram env0 (postNormalizeProgram env0 (strOf "computer science"))
        = postNormalizeProgram env0 (strOf "computer science")
      ∧ postNormalizeUniversity env0
            (postNormalizeUniversity env0 (strOf "temple university"))
        = postNormalizeUniversity env0 (strOf "temple university") :=
  ⟨C1_amended.1 (strOf "computer science")
      (by decide) (by decide) (by decide) (by decide) (by decide),
   C1_amended.2 (strOf "temple university")
      (by decide) (by decide) (by decide) (by decide)⟩

/-! ### Claim C3 -/

theorem sortInsert_perm {α : Type} (x : Nat × α) (l : List (Nat × α)) :
    List.Perm (sortInsert x l) (x :: l) := by
  induction l with
  | nil => rfl
  | cons y ys ih =>
      simp only [sortInsert]
      split_ifs
      · rfl
      · exact ((ih.cons y).trans (List.Perm.swap x y ys)).symm.symm

theorem sortByKey_perm {α : Type} (l : List (Nat × α)) : List.Perm (sortByKey l) l := by
  induction l with
  | nil => rfl
  | cons a l ih =>
      simp only [sortByKey, List.foldr_cons]
      exact (sortInsert_perm a _).trans (ih.cons a)

theorem sortInsert_pairwise {α : Type} (x : Nat × α) {l : List (Nat × α)}
    (h : l.Pairwise (fun a b => a.1 ≤ b.1)) :
    (sortInsert x l).Pairwise (fun a b => a.1 ≤ b.1) := by
  induction l with
  | nil => simp [sortInsert]
  | cons y ys ih =>
      rw [List.pairwise_cons] at h
      simp only [sortInsert]
      split_ifs with hlt
      · rw [List.pairwise_cons]
        refine ⟨?_, List.pairwise_cons.mpr h⟩
        intro p hp
        rcases List.mem_cons.mp hp with rfl | hp2
        · omega
        · exact le_trans (le_of_lt hlt) (h.1 _ hp2)
      · rw [List.pairwise_cons]
        refine ⟨?_, ih h.2⟩
        intro p hp
        rcases List.mem_cons.mp ((sortInsert_perm x ys).mem_iff.mp hp) with rfl | hp2
        · omega
        · exact h.1 _ hp2

theorem sortByKey_pairwise {α : Type} (l : List (Nat × α)) :
    (sortByKey l).Pairwise (fun a b => a.1 ≤ b.1) := by
  induction l with
  | nil => simp [sortByKey]
  | cons a l ih =>
      simp only [sortByKey, List.foldr_cons]
      exact sortInsert_pairwise a ih

theorem eq_of_perm_of_pairwise_lt {α : Type} {l₁ l₂ : List (Nat × α)}
    (hp : List.Perm l₁ l₂) (h₁ : l₁.Pairwise (fun a b => a.1 < b.1))
    (h₂ : l₂.Pairwise (fun a b => a.1 < b.1)) : l₁ = l₂ := by
  haveI : IsAntisymm (Nat × α) (fun a b => a.1 < b.1) :=
    ⟨fun a b hab hba => absurd hba (by omega)⟩
  exact List.eq_of_perm_of_sorted hp h₁ h₂

theorem pairwise_lt_of_le_nodup {α : Type} {l : List (Nat × α)}
    (hle : l.Pairwise (fun a b => a.1 ≤ b.1))
    (hnd : (l.map Prod.fst).Nodup) :
    l.Pairwise (fun a b => a.1 < b.1) := by
  have hne : l.Pairwise (fun a b => a.1 ≠ b.1) := by
    rw [List.Nodup, List.pairwise_map] at hnd
    exact hnd
  exact (hle.and hne).imp (fun h => lt_of_le_of_ne h.1 h.2)

theorem enumF_map_snd {α : Type} (n : Nat) (l : List α) :
    (enumF n l).map Prod.snd = l := by
  induction l generalizing n with
  | nil => rfl
  | cons a l ih => simp [enumF, ih]

theorem enumF_key_ge {α : Type} {n : Nat} {l : List α} :
    ∀ p ∈ enumF n l, n ≤ p.1 := by
  induction l generalizing n with
  | nil => simp [enumF]
  | cons a l ih =>
      intro p hp
      rcases List.mem_cons.mp hp with rfl | hp2
      · omega
      · exact le_trans (Nat.le_succ n) (ih p hp2)

theorem enumF_pairwise {α : Type} (n : Nat) (l : List α) :
    (enumF n l).Pairwise (fun a b => a.1 < b.1) := by
  induction l generalizing n with
  | nil => simp [enumF]
  | cons a l ih =>
      rw [enumF, List.pairwise_cons]
      exact ⟨fun p hp => lt_of_lt_of_le (Nat.lt_succ_self n) (enumF_key_ge p hp), ih _⟩


theorem rowTextE_of_ok {r : RowD} (h : rowOk r = true) :
    rowTextE r = Except.ok (okText r) := by
  unfold rowOk okText at *
  cases hr : rowTextE r <;> simp [hr] at h ⊢

theorem standardizeFast_of_rule {env : StdEnv} {t : Str} {res : Str × Str}
    (modelOut : Str → Str) (h : tryRuleBasedParse env t = some res) :
    standardizeFast env modelOut t = res := by
  unfold standardizeFast
  rw [h]

theorem pass1_ok (env : StdEnv) {l : List (Nat × RowD)}
    (h : ∀ p ∈ l, rowOk p.2 = true) :
    pass1 env l = Except.ok (pass1A env l, pass1B env l) := by
  induction l with
  | nil => rfl
  | cons p rest ih =>
      obtain ⟨i, r⟩ := p
      have hr : rowTextE r = Except.ok (okText r) :=
        rowTextE_of_ok (h (i, r) (List.mem_cons_self _ _))
      have hrest := ih (fun q hq => h q (List.mem_cons_of_mem _ hq))
      simp only [pass1, pass1A, pass1B, hr, hrest]
      cases htr : tryRuleBasedParse env (okText r) <;> simp [htr]

theorem pass1B_sublist (env : StdEnv) (l : List (Nat × RowD)) :
    List.Sublist (pass1B env l) l := by
  induction l with
  | nil => simp [pass1B]
  | cons p rest ih =>
      obtain ⟨i, r⟩ := p
      simp only [pass1B]
      cases htr : tryRuleBasedParse env (okText r)
      · exact List.Sublist.cons₂ _ ih
      · exact List.Sublist.cons _ ih

theorem pass1A_keys (env : StdEnv) (l : List (Nat × RowD)) :
    ∀ q ∈ pass1A env l, ∃ p ∈ l, q.1 = p.1 := by
  induction l with
  | nil => simp [pass1A]
  | cons p rest ih =>
      obtain ⟨i, r⟩ := p
      simp only [pass1A]
      cases htr : tryRuleBasedParse env (okText r) with
      | none =>
          intro q hq
          obtain ⟨p2, hp2, he⟩ := ih q hq
          exact ⟨p2, List.mem_cons_of_mem _ hp2, he⟩
      | some res =>
          intro q hq
          rcases List.mem_cons.mp hq with rfl | hq2
          · exact ⟨(i, r), List.mem_cons_self _ _, rfl⟩
          · obtain ⟨p2, hp2, he⟩ := ih q hq2
            exact ⟨p2, List.mem_cons_of_mem _ hp2, he⟩

theorem pass1A_pairwise (env : StdEnv) {l : List (Nat × RowD)}
    (h : l.Pairwise (fun a b => a.1 < b.1)) :
    (pass1A env l).Pairwise (fun a b => a.1 < b.1) := by
  induction l with
  | nil => simp [pass1A]
  | cons p rest ih =>
      obtain ⟨i, r⟩ := p
      rw [List.pairwise_cons] at h
      simp only [pass1A]
      cases htr : tryRuleBasedParse env (okText r)
      · exact ih h.2
      · rw [List.pairwise_cons]
        refine ⟨?_, ih h.2⟩
        intro q hq
        obtain ⟨p2, hp2, he⟩ := pass1A_keys env rest q hq
        rw [he]
        exact h.1 p2 hp2

theorem pass1_partition_perm (env : StdEnv) (modelOut : Str → Str)
    (l : List (Nat × RowD)) (h : ∀ p ∈ l, rowOk p.2 = true) :
    List.Perm
      (pass1A env l ++ (pass1B env l).map (fun p => (p.1, procRow env modelOut p.2)))
      (l.map (fun p => (p.1, procRow env modelOut p.2))) := by
  induction l with
  | nil => simp [pass1A, pass1B]
  | cons p rest ih =>
      obtain ⟨i, r⟩ := p
      have hrest := ih (fun q hq => h q (List.mem_cons_of_mem _ hq))
      simp only [pass1A, pass1B, List.map_cons]
      cases htr : tryRuleBasedParse env (okText r) with
      | some res =>
          have hpr : (r, res) = procRow env modelOut r := by
            unfold procRow
            rw [standardizeFast_of_rule modelOut htr]
          simp only [List.cons_append]
          rw [hpr]
          exact hrest.cons _
      | none =>
          refine List.Perm.trans List.perm_middle ?_
          exact hrest.cons _

theorem mapME_llm_ok (env : StdEnv) (modelOut : Str → Str)
    {l : List (Nat × RowD)} (h : ∀ p ∈ l, rowOk p.2 = true) :
    mapME (fun p => (processSingleRowE env modelOut p.2).map (fun pr => (p.1, pr))) l
      = Except.ok (l.map (fun p => (p.1, procRow env modelOut p.2))) := by
  induction l with
  | nil => rfl
  | cons p rest ih =>
      obtain ⟨i, r⟩ := p
      have hr : rowTextE r = Except.ok (okText r) :=
        rowTextE_of_ok (h (i, r) (List.mem_cons_self _ _))
      have hrest := ih (fun q hq => h q (List.mem_cons_of_mem _ hq))
      have hf : processSingleRowE env modelOut r
          = Except.ok (r, standardizeFast env modelOut (okText r)) := by
        unfold processSingleRowE
        rw [hr]
      simp only [mapME, hf, Except.map]
      simp only [Except.map] at hrest
      rw [hrest]
      simp [procRow]

theorem enumF_keys_nodup {α : Type} (n : Nat) (l : List α) :
    ((enumF n l).map Prod.fst).Nodup := by
  rw [List.Nodup, List.pairwise_map]
  exact (enumF_pairwise n l).imp (fun h => by omega)

theorem standardizeFastCount_fst (env : StdEnv) (modelOut : Str → Str) (t : Str) :
    (standardizeFastCount env modelOut t).1 = standardizeFast env modelOut t := by
  unfold standardizeFastCount standardizeFast
  cases tryRuleBasedParse env t <;> rfl

theorem httpStandardize_ok (env : StdEnv) (modelOut : Str → Str)
    {rows : List RowD} (hok : ∀ r ∈ rows, rowOk r = true) :
    httpStandardizeE env modelOut (rows.map some)
      = Except.ok (rows.map (procRow env modelOut)) := by
  induction rows with
  | nil => rfl
  | cons r rest ih =>
      have hr : rowTextE r = Except.ok (okText r) :=
        rowTextE_of_ok (hok r (List.mem_cons_self _ _))
      have hrest := ih (fun q hq => hok q (List.mem_cons_of_mem _ hq))
      simp only [httpStandardizeE, List.map_cons, mapME] at hrest ⊢
      simp only [httpStep, httpStepCnt, hr]
      rw [hrest]
      simp [procRow, standardizeFastCount_fst]

/-- Claim C3: for every batch of processable records of which some are
rule-parseable and some need the model fallback, both the CLI batch mode
(partition, process, merge by original index) and the HTTP handler
(in-order loop) emit exactly the input sequence of records, each
augmented with its derived fields — for any registries and any model. -/
theorem C3_order (env : StdEnv) (modelOut : Str → Str) (rows : List RowD)
    (hok : ∀ r ∈ rows, rowOk r = true)
    (hrule : ∃ r ∈ rows, (tryRuleBasedParse env (okText r)).isSome = true)
    (hfall : ∃ r ∈ rows, (tryRuleBasedParse env (okText r)).isSome = false) :
    cliProcessE env modelOut rows = Except.ok (rows.map (procRow env modelOut))
      ∧ httpStandardizeE env modelOut (rows.map some)
        = Except.ok (rows.map (procRow env modelOut)) := by
  refine ⟨?_, httpStandardize_ok env modelOut hok⟩
  have henum : ∀ p ∈ enumF 0 rows, rowOk p.2 = true := by
    intro p hp
    apply hok
    have : p.2 ∈ (enumF 0 rows).map Prod.snd := List.mem_map_of_mem Prod.snd hp
    rwa [enumF_map_snd] at this
  have hB : ∀ p ∈ pass1B env (enumF 0 rows), rowOk p.2 = true :=
    fun p hp => henum p ((pass1B_sublist env (enumF 0 rows)).mem hp)
  unfold cliProcessE
  rw [pass1_ok env henum]
  simp only
  rw [mapME_llm_ok env modelOut hB]
  simp only
  have hsort :
      sortByKey (pass1A env (enumF 0 rows)
          ++ (pass1B env (enumF 0 rows)).map (fun p => (p.1, procRow env modelOut p.2)))
        = (enumF 0 rows).map (fun p => (p.1, procRow env modelOut p.2)) := by
    have hperm :
        List.Perm
          (sortByKey (pass1A env (enumF 0 rows)
            ++ (pass1B env (enumF 0 rows)).map (fun p => (p.1, procRow env modelOut p.2))))
          ((enumF 0 rows).map (fun p => (p.1, procRow env modelOut p.2))) :=
      (sortByKey_perm _).trans (pass1_partition_perm env modelOut _ henum)
    have hT : ((enumF 0 rows).map (fun p => (p.1, procRow env modelOut p.2))).Pairwise
        (fun a b => a.1 < b.1) := by
      rw [List.pairwise_map]
      exact enumF_pairwise 0 rows
    refine eq_of_perm_of_pairwise_lt hperm ?_ hT
    refine pairwise_lt_of_le_nodup (sortByKey_pairwise _) ?_
    have hndT : (((enumF 0 rows).map (fun p => (p.1, procRow env modelOut p.2))).map
        Prod.fst).Nodup := by
      rw [List.map_map]
      have : (Prod.fst ∘ fun p : Nat × RowD => (p.1, procRow env modelOut p.2))
          = Prod.fst := by
        funext p
        rfl
      rw [this]
      exact enumF_keys_nodup 0 rows
    exact ((hperm.map Prod.fst).nodup_iff).mpr hndT
  rw [hsort]
  rw [List.map_map]
  have : ((fun p : Nat × ProcRow => p.2) ∘ fun p : Nat × RowD => (p.1, procRow env modelOut p.2))
      = (procRow env modelOut) ∘ Prod.snd := by
    funext p
    rfl
  rw [this, ← List.map_map, enumF_map_snd]

/-- Claim C3 witness: a three-record batch with a fallback-needing
record between two rule-parseable ones comes out in input order from
both entry points. -/
theorem C3_order_witness :
    cliProcessE env0 (fun _ => []) exRows
        = Except.ok (exRows.map (procRow env0 (fun _ => [])))
      ∧ httpStandardizeE env0 (fun _ => []) (exRows.map some)
        = Except.ok (exRows.map (procRow env0 (fun _ => []))) :=
  C3_order env0 (fun _ => []) exRows (by decide) (by decide) (by decide)

/-! ### Claim C10 -/

/-- Claim C10 counterexample: a request whose row list contains JSON
`null` does not emit the record augmented with the Unknown sentinels —
the handler raises (a TypeError at the augmentation assignment, despite
the `(row or ...)` guard) and the request fails. -/
theorem C10_counterexample :
    httpStandardizeE env0 (fun _ => []) [none] = Except.error PyErr.typeErr := rfl

/-- Claim C10 (amended): for every dict record whose `program` field is
missing or falsy, both record-processing entry points standardize it as
empty text: the record is emitted unchanged, augmented with the
("Unknown", "Unknown") sentinels, with zero model-fallback invocations —
for any registries and any model.  Rows that are `null` instead raise
(see the counterexample). -/
theorem C10_missing_program (env : StdEnv) (modelOut : Str → Str) (r : RowD)
    (h : ∀ v, r.program = some v → pyTruthy v = false) :
    httpStepCnt env modelOut (some r)
        = Except.ok ((r, (unknownS, unknownS)), 0)
      ∧ processSingleRowCntE env modelOut r
        = Except.ok ((r, (unknownS, unknownS)), 0) := by
  have htext : rowTextE r = Except.ok [] := by
    cases hp : r.program with
    | none => simp [rowTextE, hp]
    | some v => simp [rowTextE, hp, h v hp]
  have hstd : standardizeFastCount env modelOut [] = ((unknownS, unknownS), 0) := by
    unfold standardizeFastCount tryRuleBasedParse
    rw [if_pos (by simp)]
  constructor
  · simp [httpStepCnt, htext, hstd]
  · simp [processSingleRowCntE, htext, hstd]

/-- Claim C10 witness: a record with no `program` key and a record with
a falsy (empty-string) `program`, through both entry points. -/
theorem C10_missing_program_witness :
    (httpStepCnt env0 (fun _ => []) (some ⟨none, 0⟩)
        = Except.ok ((⟨none, 0⟩, (unknownS, unknownS)), 0)
      ∧ processSingleRowCntE env0 (fun _ => []) ⟨none, 0⟩
        = Except.ok ((⟨none, 0⟩, (unknownS, unknownS)), 0))
      ∧ (httpStepCnt env0 (fun _ => []) (some ⟨some (.vstr []), 1⟩)
        = Except.ok ((⟨some (.vstr []), 1⟩, (unknownS, unknownS)), 0)
      ∧ processSingleRowCntE env0 (fun _ => []) ⟨some (.vstr []), 1⟩
        = Except.ok ((⟨some (.vstr []), 1⟩, (unknownS, unknownS)), 0)) :=
  ⟨C10_missing_program env0 (fun _ => []) ⟨none, 0⟩ (fun v hv => by cases hv),
   C10_missing_program env0 (fun _ => []) ⟨some (.vstr []), 1⟩
     (fun v hv => by cases hv; rfl)⟩

/-! ### Claim C4 -/

theorem filter_length_mono {p q : Str → Prop} [DecidablePred p] [DecidablePred q]
    (l : List Str) (h : ∀ x, p x → q x) :
    (l.filter (fun x => decide (p x))).length ≤ (l.filter (fun x => decide (q x))).length := by
  induction l with
  | nil => simp
  | cons a l ih =>
      simp only [List.filter]
      by_cases hp : p a
      · rw [decide_eq_true hp, decide_eq_true (h a hp)]
        simpa using ih
      · rw [decide_eq_false hp]
        by_cases hq : q a
        · rw [decide_eq_true hq]
          simp only [List.length_cons]
          exact le_trans ih (Nat.le_succ _)
        · rw [decide_eq_false hq]
          exact ih

theorem freshCnt_cons_le (j : Str) (ms : List Str) (ks : List Str) :
    freshCnt ms ks ≤ freshCnt (j :: ms) ks := by
  unfold freshCnt
  by_cases hj : j ∈ ms
  · rw [List.dedup_cons_of_mem hj]
  · rw [List.dedup_cons_of_not_mem hj]
    simp only [List.filter]
    by_cases hk : j ∉ ks
    · rw [decide_eq_true hk]
      simp only [List.length_cons]
      exact Nat.le_succ _
    · rw [decide_eq_false hk]

theorem filter_erase_key {j : Str} {ks : List Str} (l : List Str)
    (hnd : l.Nodup) (hjl : j ∈ l) (hjk : j ∉ ks) :
    (l.filter (fun x => decide (x ∉ j :: ks))).length + 1
      ≤ (l.filter (fun x => decide (x ∉ ks))).length := by
  induction l with
  | nil => cases hjl
  | cons a l ih =>
      rw [List.nodup_cons] at hnd
      rcases List.mem_cons.mp hjl with rfl | hjl2
      · simp only [List.filter]
        rw [decide_eq_false (by simp : ¬ j ∉ j :: ks), decide_eq_true hjk]
        simp only [List.length_cons, Nat.add_le_add_iff_right]
        exact filter_length_mono l (fun x hx => fun hxk => hx (List.mem_cons_of_mem _ hxk))
      · have haj : a ≠ j := fun he => hnd.1 (he ▸ hjl2)
        simp only [List.filter]
        by_cases hak : a ∈ ks
        · rw [decide_eq_false (by simp [hak]), decide_eq_false (by simp [hak])]
          exact ih hnd.2 hjl2
        · rw [decide_eq_true (show a ∉ j :: ks by
                simp only [List.mem_cons]
                rintro (rfl | h)
                · exact haj rfl
                · exact hak h),
              decide_eq_true hak]
          simp only [List.length_cons]
          have := ih hnd.2 hjl2
          omega

theorem freshCnt_shift {j : Str} {ks : List Str} (ms : List Str) (hjk : j ∉ ks) :
    freshCnt ms (j :: ks) + 1 ≤ freshCnt (j :: ms) ks := by
  unfold freshCnt
  by_cases hj : j ∈ ms
  · rw [List.dedup_cons_of_mem hj]
    exact filter_erase_key ms.dedup (List.nodup_dedup ms) (List.mem_dedup.mpr hj) hjk
  · rw [List.dedup_cons_of_not_mem hj]
    simp only [List.filter, decide_eq_true hjk]
    simp only [List.length_cons, Nat.add_le_add_iff_right]
    exact filter_length_mono ms.dedup
      (fun x hx => fun hxk => hx (List.mem_cons_of_mem _ hxk))

theorem freshCnt_pos {j : Str} {ks : List Str} (ms : List Str) (hjk : j ∉ ks) :
    1 ≤ freshCnt (j :: ms) ks := by
  have := @freshCnt_shift j ks ms hjk
  omega

theorem findVal_append (A B : CacheSt) (j : Str) :
    findVal (A ++ B) j =
      match findVal A j with
      | some v => some v
      | none => findVal B j := by
  induction A with
  | nil => simp [findVal]
  | cons p ps ih =>
      simp only [findVal, List.cons_append, List.find?] at *
      by_cases hp : p.1 = j
      · rw [decide_eq_true hp]
        rfl
      · rw [decide_eq_false hp]
        exact ih

theorem findVal_cons_self (v : Str × Str) (B : CacheSt) (j : Str) :
    findVal ((j, v) :: B) j = some v := by
  simp [findVal, List.find?]

theorem findVal_none_not_mem {A : CacheSt} {j : Str} (h : findVal A j = none) :
    j ∉ keysOf A := by
  induction A with
  | nil => simp [keysOf]
  | cons p ps ih =>
      simp only [findVal, List.find?] at h
      by_cases hp : p.1 = j
      · rw [decide_eq_true hp] at h
        cases h
      · rw [decide_eq_false hp] at h
        simp only [keysOf, List.map_cons, List.mem_cons]
        rintro (he | hm)
        · exact hp he.symm
        · exact ih h hm

theorem eraseKey_append_left {A : CacheSt} {j : Str} {v : Str × Str}
    (h : findVal A j = some v) (B : CacheSt) :
    eraseKey (A ++ B) j = eraseKey A j ++ B := by
  induction A with
  | nil => simp [findVal] at h
  | cons p ps ih =>
      simp only [findVal, List.find?] at h
      simp only [List.cons_append, eraseKey]
      by_cases hp : p.1 = j
      · rw [if_pos hp, if_pos hp]
        rfl
      · rw [if_neg hp, if_neg hp]
        rw [decide_eq_false hp] at h
        exact congrArg (fun l => p :: l) (ih h)

theorem eraseKey_append_right {A : CacheSt} {j : Str}
    (h : findVal A j = none) (B : CacheSt) :
    eraseKey (A ++ B) j = A ++ eraseKey B j := by
  induction A with
  | nil => simp
  | cons p ps ih =>
      simp only [findVal, List.find?] at h
      simp only [List.cons_append, eraseKey]
      by_cases hp : p.1 = j
      · rw [decide_eq_true hp] at h
        cases h
      · rw [decide_eq_false hp] at h
        rw [if_neg hp]
        exact congrArg (fun l => p :: l) (ih h)

theorem eraseKey_length {A : CacheSt} {j : Str} {v : Str × Str}
    (h : findVal A j = some v) :
    (eraseKey A j).length + 1 = A.length := by
  induction A with
  | nil => simp [findVal] at h
  | cons p ps ih =>
      simp only [findVal, List.find?] at h
      simp only [eraseKey]
      by_cases hp : p.1 = j
      · rw [if_pos hp]
        simp
      · rw [decide_eq_false hp] at h
        rw [if_neg hp]
        simp only [List.length_cons]
        rw [← ih h]

theorem keysOf_eraseKey_sub {A : CacheSt} {j x : Str}
    (hx : x ∈ keysOf A) (hxj : x ≠ j) : x ∈ keysOf (eraseKey A j) := by
  induction A with
  | nil => simp [keysOf] at hx
  | cons p ps ih =>
      simp only [keysOf, List.map_cons, List.mem_cons] at hx
      simp only [eraseKey]
      by_cases hp : p.1 = j
      · rw [if_pos hp]
        rcases hx with he | hm
        · exact absurd (he.trans hp) hxj
        · exact hm
      · rw [if_neg hp]
        simp only [keysOf, List.map_cons, List.mem_cons]
        rcases hx with he | hm
        · exact Or.inl he
        · exact Or.inr (ih hm)

theorem findVal_mem_keys {A : CacheSt} {j : Str} {v : Str × Str}
    (h : findVal A j = some v) : j ∈ keysOf A := by
  unfold findVal at h
  cases hf : A.find? (fun p => p.1 = j) with
  | none => rw [hf] at h; cases h
  | some p =>
      have hm := List.mem_of_find?_eq_some hf
      have hp : p.1 = j := by
        have := List.find?_some hf
        exact of_decide_eq_true this
      exact hp ▸ List.mem_map_of_mem Prod.fst hm

theorem findVal_cons_ne {k j : Str} (h : k ≠ j) (v : Str × Str) (B : CacheSt) :
    findVal ((k, v) :: B) j = findVal B j := by
  simp [findVal, List.find?, decide_eq_false h]

theorem eraseKey_cons_ne {k j : Str} (h : k ≠ j) (v : Str × Str) (B : CacheSt) :
    eraseKey ((k, v) :: B) j = (k, v) :: eraseKey B j := by
  simp [eraseKey, h]

theorem lru_hit_after (env : StdEnv) (mo : Str → Str) (k : Str) (v : Str × Str) :
    ∀ (ms : List Str) (A B : CacheSt),
      k ∉ ms →
      A.length + freshCnt ms (keysOf A) ≤ lruMaxsize - 1 →
      lruInvoc env mo (A ++ (k, v) :: B) (ms ++ [k]) k = 0 := by
  intro ms
  induction ms with
  | nil =>
      intro A B _ _
      simp only [List.nil_append, lruInvoc]
      cases hf : findVal A k with
      | some w => simp [lruStep, findVal_append, hf]
      | none => simp [lruStep, findVal_append, hf, findVal_cons_self]
  | cons j ms' ih =>
      intro A B hk hbound
      have hjk : j ≠ k := fun he => hk (he ▸ List.mem_cons_self _ _)
      have hk' : k ∉ ms' := fun hm => hk (List.mem_cons_of_mem _ hm)
      simp only [List.cons_append, lruInvoc, if_neg (by simp [hjk] : ¬(j = k ∧ (lruStep env mo (A ++ (k, v) :: B) j).2.2 = true)), Nat.zero_add, List.append_eq]
      cases hfa : findVal A j with
      | some w =>
          have hstep : (lruStep env mo (A ++ (k, v) :: B) j).1
              = ((j, w) :: eraseKey A j) ++ (k, v) :: B := by
            simp only [lruStep, findVal_append, hfa]
            rw [eraseKey_append_left hfa]
            rfl
          rw [hstep]
          apply ih
          · exact hk'
          · have hlen : ((j, w) :: eraseKey A j).length = A.length := by
              simp only [List.length_cons]
              exact eraseKey_length hfa
            have hsub : freshCnt ms' (keysOf ((j, w) :: eraseKey A j))
                ≤ freshCnt ms' (keysOf A) := by
              apply filter_length_mono
              intro x hx hxA
              apply hx
              simp only [keysOf, List.map_cons, List.mem_cons]
              by_cases hxj : x = j
              · exact Or.inl hxj
              · exact Or.inr (keysOf_eraseKey_sub hxA hxj)
            have hcons := freshCnt_cons_le j ms' (keysOf A)
            omega
      | none =>
          have hjA : j ∉ keysOf A := findVal_none_not_mem hfa
          have hshift := @freshCnt_shift j (keysOf A) ms' hjA
          cases hfb : findVal B j with
          | some w =>
              have hstep : (lruStep env mo (A ++ (k, v) :: B) j).1
                  = ((j, w) :: A) ++ (k, v) :: eraseKey B j := by
                simp only [lruStep, findVal_append, hfa, findVal_cons_ne (Ne.symm hjk), hfb]
                rw [eraseKey_append_right hfa, eraseKey_cons_ne (Ne.symm hjk)]
                rfl
              rw [hstep]
              apply ih _ _ hk'
              simp only [List.length_cons]
              have : keysOf ((j, w) :: A) = j :: keysOf A := rfl
              rw [this]
              omega
          | none =>
              have hN : lruMaxsize = 10000 := rfl
              have hpos := @freshCnt_pos j (keysOf A) ms' hjA
              have hA2 : A.length + 2 ≤ lruMaxsize := by omega
              have hstep : (lruStep env mo (A ++ (k, v) :: B) j).1
                  = ((j, callLlmBody env mo j) :: A)
                      ++ (k, v) :: B.take (lruMaxsize - (A.length + 2)) := by
                simp only [lruStep, findVal_append, hfa, findVal_cons_ne (Ne.symm hjk), hfb]
                have hgrp : (j, callLlmBody env mo j) :: (A ++ (k, v) :: B)
                    = (((j, callLlmBody env mo j) :: A) ++ [(k, v)]) ++ B := by
                  simp
                rw [hgrp, List.take_append_eq_append_take]
                have hlen1 : (((j, callLlmBody env mo j) :: A) ++ [(k, v)]).length
                    = A.length + 2 := by simp
                rw [List.take_of_length_le (by rw [hlen1]; exact hA2)]
                rw [hlen1]
                simp
              rw [hstep]
              apply ih _ _ hk'
              simp only [List.length_cons]
              have : keysOf ((j, callLlmBody env mo j) :: A) = j :: keysOf A := rfl
              rw [this]
              omega

theorem findVal_some_val {st : CacheSt} {k : Str} {w : Str × Str}
    (h : findVal st k = some w) : ∃ q ∈ st, q.1 = k ∧ q.2 = w := by
  unfold findVal at h
  cases hf : st.find? (fun p => p.1 = k) with
  | none => rw [hf] at h; cases h
  | some q =>
      rw [hf] at h
      have hq := List.find?_some hf
      refine ⟨q, List.mem_of_find?_eq_some hf, of_decide_eq_true hq, ?_⟩
      simpa using h

theorem eraseKey_subset {st : CacheSt} {j : Str} : ∀ p ∈ eraseKey st j, p ∈ st := by
  induction st with
  | nil => simp [eraseKey]
  | cons q qs ih =>
      intro p hp
      simp only [eraseKey] at hp
      by_cases hq : q.1 = j
      · rw [if_pos hq] at hp
        exact List.mem_cons_of_mem _ hp
      · rw [if_neg hq] at hp
        rcases List.mem_cons.mp hp with rfl | hp2
        · exact List.mem_cons_self _ _
        · exact List.mem_cons_of_mem _ (ih p hp2)

theorem lruResults_pure (env : StdEnv) (mo : Str → Str) :
    ∀ (ks : List Str) (st : CacheSt),
      (∀ p ∈ st, p.2 = callLlmBody env mo p.1) →
      lruResults env mo st ks = ks.map (callLlmBody env mo) := by
  intro ks
  induction ks with
  | nil => intro st _; rfl
  | cons k ks ih =>
      intro st hst
      simp only [lruResults, List.map_cons]
      cases hf : findVal st k with
      | some w =>
          obtain ⟨q, hq, hq1, hq2⟩ := findVal_some_val hf
          have hw : w = callLlmBody env mo k := by
            rw [← hq2, hst q hq, hq1]
          have hhead : (lruStep env mo st k).2.1 = callLlmBody env mo k := by
            simp [lruStep, hf, hw]
          rw [hhead]
          congr 1
          apply ih
          intro r hr
          rcases List.mem_cons.mp
              (show r ∈ (k, w) :: eraseKey st k from by
                simpa [lruStep, hf] using hr) with rfl | hr2
          · simpa using hw
          · exact hst r (eraseKey_subset r hr2)
      | none =>
          have hhead : (lruStep env mo st k).2.1 = callLlmBody env mo k := by
            simp [lruStep, hf]
          rw [hhead]
          congr 1
          apply ih
          intro r hr
          have hr2 : r ∈ (k, callLlmBody env mo k) :: st := by
            have := List.take_subset lruMaxsize ((k, callLlmBody env mo k) :: st)
            apply this
            simpa [lruStep, hf] using hr
          rcases List.mem_cons.mp hr2 with rfl | hr3
          · rfl
          · exact hst r hr3

theorem lruInvoc_not_mem (env : StdEnv) (mo : Str → Str) (k : Str) :
    ∀ (qs : List Str) (st : CacheSt), k ∉ qs → lruInvoc env mo st qs k = 0 := by
  intro qs
  induction qs with
  | nil => intro st _; rfl
  | cons q qs ih =>
      intro st hk
      have hq : ¬q = k := fun he => hk (he ▸ List.mem_cons_self _ _)
      simp only [lruInvoc, if_neg (by simp [hq] : ¬(q = k ∧ (lruStep env mo st q).2.2 = true))]
      rw [ih _ (fun hm => hk (List.mem_cons_of_mem _ hm))]

theorem lruInvoc_append (env : StdEnv) (mo : Str → Str) (k : Str) :
    ∀ (xs ys : List Str) (st : CacheSt),
      lruInvoc env mo st (xs ++ ys) k
        = lruInvoc env mo st xs k + lruInvoc env mo (lruRunSt env mo st xs) ys k := by
  intro xs
  induction xs with
  | nil => intro ys st; simp [lruInvoc, lruRunSt]
  | cons x xs ih =>
      intro ys st
      simp only [List.cons_append, lruInvoc, lruRunSt, List.append_eq]
      rw [ih ys ((lruStep env mo st x).1)]
      omega

theorem take_append_take {α : Type} (N : Nat) (l m : List α) :
    (l ++ m.take N).take N = (l ++ m).take N := by
  rw [List.take_append_eq_append_take, List.take_append_eq_append_take, List.take_take]
  rw [Nat.min_eq_left (Nat.sub_le N l.length)]

theorem findVal_none_of_not_mem {st : CacheSt} {j : Str} (h : j ∉ keysOf st) :
    findVal st j = none := by
  induction st with
  | nil => rfl
  | cons p ps ih =>
      rw [show keysOf (p :: ps) = p.1 :: keysOf ps from rfl, List.mem_cons] at h
      push_neg at h
      have hne : ¬ p.1 = j := fun he => h.1 he.symm
      simp only [findVal, List.find?, decide_eq_false hne]
      exact ih h.2

theorem keysOf_pairMap (fs : List Str) (g : Str → Str × Str) :
    keysOf (fs.map (fun f => (f, g f))) = fs := by
  simp only [keysOf, List.map_map]
  have : (Prod.fst ∘ fun f : Str => (f, g f)) = id := by
    funext f
    rfl
  rw [this, List.map_id]

theorem lruRunSt_fresh (env : StdEnv) (mo : Str → Str) :
    ∀ (fs : List Str) (st : CacheSt), fs.Nodup →
      (∀ f ∈ fs, f ∉ keysOf st) → st.length ≤ lruMaxsize →
      lruRunSt env mo st fs
        = ((fs.reverse.map (fun f => (f, callLlmBody env mo f))) ++ st).take lruMaxsize := by
  intro fs
  induction fs with
  | nil =>
      intro st _ _ hlen
      simp only [lruRunSt, List.reverse_nil, List.map_nil, List.nil_append]
      exact (List.take_of_length_le hlen).symm
  | cons f fs ih =>
      intro st hnd hfresh hlen
      rw [List.nodup_cons] at hnd
      have hf : findVal st f = none :=
        findVal_none_of_not_mem (hfresh f (List.mem_cons_self _ _))
      simp only [lruRunSt, lruStep, hf]
      rw [ih (((f, callLlmBody env mo f) :: st).take lruMaxsize) hnd.2 ?fresh ?len]
      case fresh =>
        intro g hg hmem
        have hsub : keysOf (((f, callLlmBody env mo f) :: st).take lruMaxsize)
            ⊆ keysOf ((f, callLlmBody env mo f) :: st) := by
          unfold keysOf
          intro x hx
          obtain ⟨p, hp, rfl⟩ := List.mem_map.mp hx
          exact List.mem_map_of_mem Prod.fst (List.take_subset _ _ hp)
        have := hsub hmem
        simp only [keysOf, List.map_cons, List.mem_cons] at this
        rcases this with he | hm
        · exact hnd.1 (he ▸ hg)
        · exact hfresh g (List.mem_cons_of_mem _ hg) (by simpa [keysOf] using hm)
      case len => exact List.length_take_le _ _
      rw [take_append_take, List.reverse_cons, List.map_append]
      simp

theorem fillerK_inj : Function.Injective fillerK := by
  intro i j h
  have := congrArg List.length h
  simp [fillerK] at this
  exact this

theorem fillerK_ne_k (i : Nat) : fillerK i ≠ [107] := by
  intro h
  have := congrArg List.length h
  simp [fillerK] at this

theorem fillers_nodup : ((List.range lruMaxsize).map fillerK).Nodup :=
  (List.nodup_range _).map fillerK_inj

theorem k_not_mem_fillers : [107] ∉ (List.range lruMaxsize).map fillerK := by
  intro h
  obtain ⟨i, _, hi⟩ := List.mem_map.mp h
  exact fillerK_ne_k i hi

theorem lruInvoc_cons (env : StdEnv) (mo : Str → Str) (st : CacheSt)
    (q : Str) (qs : List Str) (k : Str) :
    lruInvoc env mo st (q :: qs) k
      = (if q = k ∧ (lruStep env mo st q).2.2 then 1 else 0)
        + lruInvoc env mo (lruStep env mo st q).1 qs k := rfl

theorem lruInvoc_first_miss (env : StdEnv) (mo : Str → Str) (k : Str)
    (st : CacheSt) (qs : List Str) (h : findVal st k = none) :
    lruInvoc env mo st (k :: qs) k
      = 1 + lruInvoc env mo
          ((kvPair env mo k :: st).take lruMaxsize) qs k := by
  have hb : (lruStep env mo st k).2.2 = true := by
    unfold lruStep
    rw [h]
  have hs : (lruStep env mo st k).1
      = (kvPair env mo k :: st).take lruMaxsize := by
    unfold lruStep kvPair
    rw [h]
  rw [lruInvoc_cons, if_pos ⟨rfl, hb⟩, hs]

theorem lruInvoc_one_miss (env : StdEnv) (mo : Str → Str) (k : Str)
    (st : CacheSt) (h : findVal st k = none) :
    lruInvoc env mo st [k] k = 1 := by
  have hb : (lruStep env mo st k).2.2 = true := by
    unfold lruStep
    rw [h]
  rw [show ([k] : List Str) = k :: [] from rfl, lruInvoc_cons, if_pos ⟨rfl, hb⟩]
  rfl

/-- Claim C4 counterexample: the cache is `lru_cache(maxsize=10000)`, not
an unbounded pure memoization: in the trace that calls the fallback on
"k", then on 10000 distinct other texts, then on "k" again, the entry
for "k" is evicted and the underlying model is invoked twice for "k". -/
theorem C4_counterexample :
    lruInvoc env0 (fun _ => []) [] exTraceC4 [107] = 2 := by
  have htake : (kvPair env0 (fun _ => []) [107]
        :: ([] : CacheSt)).take lruMaxsize
      = [kvPair env0 (fun _ => []) [107]] :=
    List.take_of_length_le (by
      simp only [List.length_cons, List.length_nil, lruMaxsize]
      omega)
  have hrun : lruRunSt env0 (fun _ => [])
      [kvPair env0 (fun _ => []) [107]]
      ((List.range lruMaxsize).map fillerK)
      = ((List.range lruMaxsize).map fillerK).reverse.map
          (fun f => (f, callLlmBody env0 (fun _ => []) f)) := by
    rw [lruRunSt_fresh env0 (fun _ => []) _ _ fillers_nodup ?fresh (by
      simp only [List.length_cons, List.length_nil, lruMaxsize]
      omega)]
    case fresh =>
      intro f hf hmem
      obtain ⟨i, _, rfl⟩ := List.mem_map.mp hf
      simp only [keysOf, List.map_cons, List.map_nil, List.mem_cons] at hmem
      rcases hmem with he | hm
      · exact fillerK_ne_k i he
      · cases hm
    have hlen : (((List.range lruMaxsize).map fillerK).reverse.map
        (fun f => (f, callLlmBody env0 (fun _ => []) f))).length = lruMaxsize := by
      simp
    rw [List.take_append_eq_append_take, List.take_of_length_le (le_of_eq hlen), hlen]
    simp
  have hkeys : findVal (((List.range lruMaxsize).map fillerK).reverse.map
      (fun f => (f, callLlmBody env0 (fun _ => []) f))) [107] = none := by
    apply findVal_none_of_not_mem
    rw [keysOf_pairMap]
    intro h
    exact k_not_mem_fillers (List.mem_reverse.mp h)
  calc lruInvoc env0 (fun _ => []) [] exTraceC4 [107]
      = 1 + lruInvoc env0 (fun _ => [])
          ((kvPair env0 (fun _ => []) [107] :: ([] : CacheSt)).take lruMaxsize)
          ((List.range lruMaxsize).map fillerK ++ [[107]]) [107] :=
        lruInvoc_first_miss env0 (fun _ => []) [107] []
          ((List.range lruMaxsize).map fillerK ++ [[107]]) rfl
    _ = 1 + lruInvoc env0 (fun _ => [])
          [kvPair env0 (fun _ => []) [107]]
          ((List.range lruMaxsize).map fillerK ++ [[107]]) [107] :=
        congrArg (fun s => 1 + lruInvoc env0 (fun _ => []) s
          ((List.range lruMaxsize).map fillerK ++ [[107]]) [107]) htake
    _ = 1 + (lruInvoc env0 (fun _ => [])
            [kvPair env0 (fun _ => []) [107]]
            ((List.range lruMaxsize).map fillerK) [107]
          + lruInvoc env0 (fun _ => [])
              (lruRunSt env0 (fun _ => [])
                [kvPair env0 (fun _ => []) [107]]
                ((List.range lruMaxsize).map fillerK))
              [[107]] [107]) :=
        congrArg (fun n => 1 + n)
          (lruInvoc_append env0 (fun _ => []) [107]
            ((List.range lruMaxsize).map fillerK) [[107]]
            [kvPair env0 (fun _ => []) [107]])
    _ = 1 + (0 + lruInvoc env0 (fun _ => [])
              (lruRunSt env0 (fun _ => [])
                [kvPair env0 (fun _ => []) [107]]
                ((List.range lruMaxsize).map fillerK))
              [[107]] [107]) :=
        congrArg (fun n => 1 + (n + lruInvoc env0 (fun _ => [])
              (lruRunSt env0 (fun _ => [])
                [kvPair env0 (fun _ => []) [107]]
                ((List.range lruMaxsize).map fillerK))
              [[107]] [107]))
          (lruInvoc_not_mem env0 (fun _ => []) [107] _ _ k_not_mem_fillers)
    _ = 1 + (0 + lruInvoc env0 (fun _ => [])
              (((List.range lruMaxsize).map fillerK).reverse.map
                (fun f => (f, callLlmBody env0 (fun _ => []) f)))
              [[107]] [107]) :=
        congrArg (fun s => 1 + (0 + lruInvoc env0 (fun _ => []) s [[107]] [107])) hrun
    _ = 1 + (0 + 1) :=
        congrArg (fun n => 1 + (0 + n))
          (lruInvoc_one_miss env0 (fun _ => []) [107] _ hkeys)
    _ = 2 := rfl

/-- Claim C4 (amended): the fallback cache is a pure LRU memoization of
capacity 10000 keyed by the exact raw text: every call returns exactly
the deterministic value of the memoized body (so any two calls with the
same text return identical results), and a repeated call invokes the
model at most once in total as long as fewer than 10000 distinct other
texts are requested in between; beyond that the entry may be evicted
(see the counterexample), so entries do not survive arbitrarily long
within a process lifetime. -/
theorem C4_amended :
    (∀ (env : StdEnv) (mo : Str → Str) (st : CacheSt) (ks : List Str),
       (∀ p ∈ st, p.2 = callLlmBody env mo p.1) →
       lruResults env mo st ks = ks.map (callLlmBody env mo))
    ∧ (∀ (env : StdEnv) (mo : Str → Str) (k : Str) (v : Str × Str)
         (st : CacheSt) (ms : List Str),
       k ∉ ms → ms.dedup.length ≤ lruMaxsize - 1 →
       lruInvoc env mo ((k, v) :: st) (ms ++ [k]) k = 0) := by
  constructor
  · intro env mo st ks h
    exact lruResults_pure env mo ks st h
  · intro env mo k v st ms hk hms
    have hfc : freshCnt ms (keysOf ([] : CacheSt)) = ms.dedup.length := by
      unfold freshCnt keysOf
      simp
    have hb : ([] : CacheSt).length + freshCnt ms (keysOf ([] : CacheSt))
        ≤ lruMaxsize - 1 := by
      rw [hfc]
      simpa using hms
    have h2 := lru_hit_after env mo k v ms [] st hk hb
    simpa using h2

/-- Claim C4 witness: the purity conjunct on a two-call trace and the
hit conjunct with one distinct other text between the two calls. -/
theorem C4_amended_witness :
    lruResults env0 (fun _ => []) [] [[97], [97]]
        = [[97], [97]].map (callLlmBody env0 (fun _ => []))
      ∧ lruInvoc env0 (fun _ => [])
          [([107], callLlmBody env0 (fun _ => []) [107])]
          ([[97]] ++ [[107]]) [107] = 0 :=
  ⟨C4_amended.1 env0 (fun _ => []) [] [[97], [97]] (by simp),
   C4_amended.2 env0 (fun _ => []) [107] _ [] [[97]] (by decide) (by decide)⟩

/-! ### Claim C5 -/

/-- Claim C5: the right-scan splitter applied to
"Criminology, Law and Society, Temple University" returns the program
fragment "Criminology, Law and Society" and the university fragment
"Temple University" — it does not split inside the multi-comma program
name.  (Registries as shipped: both canonical-list files are absent from
the source tree, so the registries are empty and the keyword branch of
the right scan decides.) -/
theorem C5_split_correct :
    smartSplit env0 (strOf "Criminology, Law and Society, Temple University")
      = (strOf "Criminology, Law and Society", strOf "Temple University") := by
  decide

/-! ### Claim C6 -/

/-- Claim C6 counterexample: `_standardize_fast("Information, McG")` does
not return ("Information Studies", "McGill University").  The rule-based
path accepts the record: the splitter yields ("Information", "McG"), the
abbreviation map expands "McG" to "McGill University", but `title()`
then renders it "Mcgill University", and the program is left
"Information", so the model path that would produce "Information
Studies" is never consulted. -/
theorem C6_counterexample :
    standardizeFast env0 (fun _ => []) (strOf "Information, McG")
      ≠ (strOf "Information Studies", strOf "McGill University") := by
  decide

/-- Claim C6 (amended): standardizing "Information, McG" yields
("Information", "Mcgill University") — the rule path accepts with the
unexpanded program and the title-cased abbreviation expansion — while
standardizing "Mathematics, University Of British Columbia" yields
("Mathematics", "University of British Columbia") as the claim states. -/
theorem C6_amended :
    standardizeFast env0 (fun _ => []) (strOf "Information, McG")
        = (strOf "Information", strOf "Mcgill University")
      ∧ standardizeFast env0 (fun _ => [])
          (strOf "Mathematics, University Of British Columbia")
        = (strOf "Mathematics", strOf "University of British Columbia") := by
  decide

/-! ### Claim C9 -/

/-- Claim C9: for every empty or all-whitespace raw input, the pipeline
immediately returns ("Unknown", "Unknown") from the rule-based parser
and performs zero model-fallback invocations — for any registries and
any model. -/
theorem C9_blank_input (env : StdEnv) (modelOut : Str → Str) (t : Str)
    (h : ∀ c ∈ t, isSpaceN c) :
    tryRuleBasedParse env t = some (unknownS, unknownS)
      ∧ standardizeFastCount env modelOut t = ((unknownS, unknownS), 0) := by
  have hs : pyStrip t = [] := pyStrip_eq_nil h
  constructor
  · unfold tryRuleBasedParse
    rw [if_pos (by simp [hs])]
  · unfold standardizeFastCount tryRuleBasedParse
    rw [if_pos (by simp [hs])]

/-- Claim C9 witness: the single-space input is all-whitespace and the
theorem evaluates on it. -/
theorem C9_blank_input_witness :
    tryRuleBasedParse env0 [32] = some (unknownS, unknownS)
      ∧ standardizeFastCount env0 (fun _ => []) [32] = ((unknownS, unknownS), 0) :=
  C9_blank_input env0 (fun _ => []) [32] (by decide)

/-! ### Claim C2 -/

/-- Claim C2: with the registries as shipped (both canonical-list files
absent, hence empty), for every non-blank input on which the right-scan
splitter produces a non-empty university fragment, `_try_rule_based_parse`
returns the normalized pair exactly when the normalized university is not
"Unknown" and the normalized program is non-empty, or the raw university
fragment is an exact canonical-list member; otherwise it returns `None`. -/
theorem C2_rule_gate (t : Str) (h1 : pyStrip t ≠ [])
    (h2 : (smartSplit env0 t).2 ≠ []) :
    tryRuleBasedParse env0 t =
      if (postNormalizeUniversity env0 (smartSplit env0 t).2 ≠ unknownS
            ∧ postNormalizeProgram env0 (smartSplit env0 t).1 ≠ [])
          ∨ (smartSplit env0 t).2 ∈ env0.canonUnis
      then some (postNormalizeProgram env0 (smartSplit env0 t).1,
                 postNormalizeUniversity env0 (smartSplit env0 t).2)
      else none := by
  have ht : t ≠ [] := by
    intro he
    exact h1 (by simp [he, pyStrip, dropTrail])
  unfold tryRuleBasedParse
  rw [if_neg (by simp [ht, h1, List.isEmpty_iff])]
  simp only
  rw [if_neg (by simp [List.isEmpty_iff, h2])]
  have hinner :
      (if ¬(postNormalizeUniversity env0 (smartSplit env0 t).2).isEmpty = true
            ∧ postNormalizeUniversity env0 (smartSplit env0 t).2 ∈ env0.canonUnis
       then some (postNormalizeProgram env0 (smartSplit env0 t).1,
                  postNormalizeUniversity env0 (smartSplit env0 t).2)
       else (none : Option (Str × Str))) = none := by
    rw [if_neg]
    simp [env0]
  rw [hinner]
  refine if_congr ?_ rfl rfl
  simp [env0, List.isEmpty_iff]

/-- Claim C2 witness: "Math, Temple University" is non-blank, splits with
a non-empty university fragment, and the gate accepts it. -/
theorem C2_rule_gate_witness :
    tryRuleBasedParse env0 (strOf "Math, Temple University") =
      if (postNormalizeUniversity env0 (smartSplit env0 (strOf "Math, Temple University")).2 ≠ unknownS
            ∧ postNormalizeProgram env0 (smartSplit env0 (strOf "Math, Temple University")).1 ≠ [])
          ∨ (smartSplit env0 (strOf "Math, Temple University")).2 ∈ env0.canonUnis
      then some (postNormalizeProgram env0 (smartSplit env0 (strOf "Math, Temple University")).1,
                 postNormalizeUniversity env0 (smartSplit env0 (strOf "Math, Temple University")).2)
      else none :=
  C2_rule_gate (strOf "Math, Temple University") (by decide) (by decide)

/-! ### Claim C7 -/

/-- Claim C7: whenever locating and JSON-parsing the first embedded
object in the model's text output fails (no brace span, unparsable JSON,
or a non-dict document), the fallback call degrades to the right-scan
splitter output on the original raw text, post-normalized — it returns a
value, never an exception, for any registries and any model output. -/
theorem C7_parse_failure_degrades (env : StdEnv) (modelOut : Str → Str) (raw : Str)
    (h : (extractObj (pyStrip (modelOut raw))).isNone = true) :
    callLlmBody env modelOut raw =
      (postNormalizeProgram env (splitFallback env raw).1,
       postNormalizeUniversity env (splitFallback env raw).2) := by
  simp only [callLlmBody]
  rw [Option.isNone_iff_eq_none.mp h]

/-- Claim C7 witness: an empty model output has no embedded object and
the call degrades to the split of the raw text "x". -/
theorem C7_parse_failure_degrades_witness :
    (extractObj (pyStrip ((fun _ => ([] : Str)) (strOf "x")))).isNone = true
      ∧ callLlmBody env0 (fun _ => []) (strOf "x") =
          (postNormalizeProgram env0 (splitFallback env0 (strOf "x")).1,
           postNormalizeUniversity env0 (splitFallback env0 (strOf "x")).2) :=
  ⟨by decide, C7_parse_failure_degrades env0 (fun _ => []) (strOf "x") (by decide)⟩

/-! ### Claim C8 -/

/-- Claim C8 counterexample: when the model answers with an object that
lacks the two fields (here the empty object) on an input the rules
escalate (","), the emitted standardization result has an empty program
component: the result is ([], "Unknown"), so the components are not both
non-empty strings. -/
theorem C8_counterexample :
    standardizeFast env0 (fun _ => [123, 125]) (strOf ",") = ([], unknownS) := by
  decide

/-- Claim C8 (amended): for well-formed registries (canonical entries are
non-empty lines), every standardization result produced by any path has a
non-empty university component — "Unknown" is the sentinel — and is in
particular never (empty, empty); the program component, however, may be
empty (see the counterexample). -/
theorem C8_result_invariant (env : StdEnv) (hwf : ∀ u ∈ env.canonUnis, u ≠ [])
    (modelOut : Str → Str) (raw : Str) :
    (standardizeFast env modelOut raw).2 ≠ []
      ∧ ¬((standardizeFast env modelOut raw).1 = []
            ∧ (standardizeFast env modelOut raw).2 = []) := by
  have h2 : (standardizeFast env modelOut raw).2 ≠ [] := by
    unfold standardizeFast
    split
    · rename_i r hr
      rcases tryRule_snd env raw r hr with h | h
      · rw [h]
        simp [unknownS, strOf]
      · rw [h]
        exact postNormU_ne_nil env hwf _
    · exact postNormU_ne_nil env hwf _
  exact ⟨h2, fun hc => h2 hc.2⟩

/-- Claim C8 witness: the invariant evaluated at the counterexample's
input — the university component is "Unknown", not empty. -/
theorem C8_result_invariant_witness :
    (standardizeFast env0 (fun _ => [123, 125]) (strOf ",")).2 ≠ []
      ∧ ¬((standardizeFast env0 (fun _ => [123, 125]) (strOf ",")).1 = []
            ∧ (standardizeFast env0 (fun _ => [123, 125]) (strOf ",")).2 = []) :=
  C8_result_invariant env0 (fun _ h => absurd h (List.not_mem_nil _))
    (fun _ => [123, 125]) (strOf ",")

end LlmApp
